import Mathlib

/-!
# Multi-armed bandit simulation (`mab.go`): shallow embedding

Conventions of the embedding.

* Go `int` is the 64-bit signed integer: a value is an `Int` in the range
  `IsInt64`, and an increment `x++` is the exact sum followed by `wrap64`
  (two's complement wrap-around). That a field holds an `int` is a hypothesis
  `IsInt64` where a statement needs it. Loop counters are exact integers; the
  loops of the program stop at bounds far below `2^63`.
* Go `float64` is a rational number together with the rounding function
  `round64` (round to nearest, ties to even, 53-bit significand). Every float
  operation is the exact operation followed by `round64`. The exponent range is
  unbounded: infinities, NaN, signed zero and subnormals are not modelled, and a
  division by a zero divisor (an infinity or NaN in Go) has the value 0.
* The global generator of `math/rand` is an explicit tape of draws, threaded
  through every function that draws. `rand.Float64()` reads the field `u` of the
  next cell, `rand.Intn(n)` reads the field `k` of the next cell modulo `n` and
  panics when `n <= 0`. The field `u` ranges over all rationals; the draws of the
  program are the float64 values in `[0, 1)`.
* A run-time panic is the `error` case of `Except Panic`.
* `math.Sqrt` and `math.Log` are library functions outside the repository and
  are taken as parameters (`MathFns`). What a statement needs of them is a
  hypothesis of that statement.
* Every run seeds the generator from the clock; a run is a function of its seeded
  source, and `main` takes one source per run. Printing is not modelled: `main`
  returns the two averages it prints.
-/

namespace Mab

/-! ## int -/

/-- Values that an `int` variable can hold. -/
def IsInt64 (n : ℤ) : Prop := -2 ^ 63 ≤ n ∧ n < 2 ^ 63

instance (n : ℤ) : Decidable (IsInt64 n) := by
  unfold IsInt64; infer_instance

/-- Wrap-around of an exact integer result to 64 bits, two's complement. -/
def wrap64 (n : ℤ) : ℤ := (n + 2 ^ 63) % 2 ^ 64 - 2 ^ 63

/-! ## float64 -/

/-- Halves `n` until it is below 2, at most `fuel` times, counting the halvings. -/
def log2Aux : ℕ → ℕ → ℕ
  | 0, _ => 0
  | fuel + 1, n => if 2 ≤ n then log2Aux fuel (n / 2) + 1 else 0

/-- Floor of the base-2 logarithm of a positive natural number. -/
def natLog2 (n : ℕ) : ℕ := log2Aux n n

/-- Floor of the base-2 logarithm of `|q|` for a non-zero rational `q`. -/
def ilog2 (q : ℚ) : ℤ :=
  let c : ℤ := (natLog2 q.num.natAbs : ℤ) - (natLog2 q.den : ℤ)
  if (2 : ℚ) ^ c ≤ |q| then c else c - 1

/-- Nearest integer, ties to the even one. -/
def roundHalfEven (q : ℚ) : ℤ :=
  let f : ℤ := ⌊q⌋
  let r : ℚ := q - f
  if r < 1 / 2 then f
  else if 1 / 2 < r then f + 1
  else if f % 2 = 0 then f else f + 1

/-- Rounding of an exact result to float64: nearest value with a 53-bit
significand, ties to even. -/
def round64 (q : ℚ) : ℚ :=
  if q = 0 then 0
  else
    let e : ℤ := ilog2 q - 52
    (roundHalfEven (q / 2 ^ e) : ℚ) * 2 ^ e

/-- Values that a float64 variable can hold. -/
def IsF64 (q : ℚ) : Prop := round64 q = q

instance (q : ℚ) : Decidable (IsF64 q) := by
  unfold IsF64; infer_instance

/-- Float addition `x + y`. -/
def fadd (x y : ℚ) : ℚ := round64 (x + y)

/-- Float multiplication `x * y`. -/
def fmul (x y : ℚ) : ℚ := round64 (x * y)

/-- Float division `x / y`. -/
def fdiv (x y : ℚ) : ℚ := round64 (x / y)

/-- Conversion `float64(n)` of an integer. -/
def ofInt (n : ℤ) : ℚ := round64 (n : ℚ)

/-- Conversion `int(x)` of a float: truncation toward zero when the truncated
value is an `int`. For any other value Go leaves the result to the
implementation; the model takes the result on amd64, the smallest `int`. -/
def toInt (x : ℚ) : ℤ :=
  let z : ℤ := if 0 ≤ x then ⌊x⌋ else ⌈x⌉
  if -2 ^ 63 ≤ z ∧ z < 2 ^ 63 then z else -2 ^ 63

/-! ## panics and the random source -/

/-- Run-time panics of the program. -/
inductive Panic where
  | indexOutOfRange
  | intnNonPositive
  deriving DecidableEq, Repr

/-- One cell of the random tape. -/
structure Draw where
  u : ℚ
  k : ℕ

/-- The global random source: a tape and the position of the next draw. -/
structure Rng where
  tape : ℕ → Draw
  pos : ℕ

/-- Source positioned one cell further. -/
def Rng.next (g : Rng) : Rng := { g with pos := g.pos + 1 }

/-- Model of `rand.Float64()`. -/
def Rng.Float64 (g : Rng) : ℚ × Rng := ((g.tape g.pos).u, g.next)

/-- Model of `rand.Intn(n)`: panics when `n <= 0`. -/
def Rng.Intn (g : Rng) (n : ℤ) : Except Panic (ℤ × Rng) :=
  if n ≤ 0 then .error .intnNonPositive
  else .ok ((((g.tape g.pos).k : ℤ) % n), g.next)

/-! ## Arm -/

/-- The struct `Arm`. -/
structure Arm where
  Trials : ℤ
  Successes : ℤ
  TotalReward : ℚ
  SuccessProb : ℚ
  RewardValue : ℚ
  deriving DecidableEq

/-- The method `AvgReward`. -/
def Arm.AvgReward (a : Arm) : ℚ :=
  if a.Trials = 0 then 0 else fdiv a.TotalReward (ofInt a.Trials)

/-- A call `a.AvgReward()` through the pointer receiver: the value returned and
the receiver after the call. The body of the method assigns no field. -/
def Arm.AvgRewardCall (a : Arm) : ℚ × Arm := (a.AvgReward, a)

/-- The method `Play`. -/
def Arm.Play (a : Arm) (g : Rng) : Except Panic (Arm × Rng) :=
  let a1 : Arm := { a with Trials := wrap64 (a.Trials + 1) }
  let (d, g1) := g.Float64
  if d < a1.SuccessProb then
    let a2 : Arm := { a1 with Successes := wrap64 (a1.Successes + 1) }
    match g1.Intn (toInt a2.RewardValue) with
    | .error p => .error p
    | .ok (r, g2) => .ok ({ a2 with TotalReward := fadd a2.TotalReward (ofInt r) }, g2)
  else .ok (a1, g1)

/-- The receiver as a call of `Play` leaves it in memory, whether the call
returns or ends in the panic of `rand.Intn`: the assignments of `Play` in the
order of the source, the two increments before the reward is drawn. -/
def Arm.PlayReceiver (a : Arm) (g : Rng) : Arm :=
  let a1 : Arm := { a with Trials := wrap64 (a.Trials + 1) }
  let (d, g1) := g.Float64
  if d < a1.SuccessProb then
    let a2 : Arm := { a1 with Successes := wrap64 (a1.Successes + 1) }
    match g1.Intn (toInt a2.RewardValue) with
    | .error _ => a2
    | .ok (r, _) => { a2 with TotalReward := fadd a2.TotalReward (ofInt r) }
  else a1

/-- Indexing `xs[i]` with its bounds check. -/
def index {α : Type} (xs : List α) (i : ℤ) : Except Panic α :=
  if i < 0 then .error .indexOutOfRange
  else
    match xs[i.toNat]? with
    | some a => .ok a
    | none => .error .indexOutOfRange

/-! ## epsilon-greedy -/

/-- The function `chooseArm`. -/
def chooseArm (arms : List Arm) (epsilon : ℚ) (g : Rng) : Except Panic ((ℤ × Bool) × Rng) :=
  match index arms 0, index arms 1 with
  | .error p, _ => .error p
  | .ok _, .error p => .error p
  | .ok a0, .ok a1 =>
    let avg0 := a0.AvgReward
    let avg1 := a1.AvgReward
    let (d, g1) := g.Float64
    let exploring : Bool := decide (d < epsilon)
    if exploring then
      if avg0 > avg1 then .ok ((1, true), g1)
      else if avg1 > avg0 then .ok ((0, true), g1)
      else
        match g1.Intn 2 with
        | .error p => .error p
        | .ok (r, g2) => .ok ((r, true), g2)
    else if avg0 > avg1 then .ok ((0, false), g1)
    else if avg1 > avg0 then .ok ((1, false), g1)
    else if a0.Trials ≤ a1.Trials then .ok ((0, false), g1)
    else .ok ((1, false), g1)

/-! ## simulation runs -/

/-- State of a run. The field `played` is a ghost log of the indices on which
`Play` has been called, oldest first; the program keeps no such log. -/
structure Sim where
  arms : List Arm
  rng : Rng
  played : List ℤ

/-- The statement `arms[choice].Play()`. -/
def playArm (s : Sim) (choice : ℤ) : Except Panic Sim :=
  match index s.arms choice with
  | .error p => .error p
  | .ok a =>
    match a.Play s.rng with
    | .error p => .error p
    | .ok (a1, g1) =>
      .ok { arms := s.arms.set choice.toNat a1, rng := g1, played := s.played ++ [choice] }

/-- Runs `body i`, then `body (i + 1)`, ... : `n` iterations in all. The counter
is exact: it stays an `int` as long as `i + n` is one. -/
def forLoop {σ : Type} (body : ℤ → σ → Except Panic σ) : ℕ → ℤ → σ → Except Panic σ
  | 0, _, s => .ok s
  | n + 1, i, s =>
    match body i s with
    | .error p => .error p
    | .ok s1 => forLoop body n (i + 1) s1

/-- The loop `for i := lo; i < hi; i++ { body }`. -/
def forRange {σ : Type} (body : ℤ → σ → Except Panic σ) (lo hi : ℤ) (s : σ) : Except Panic σ :=
  forLoop body (hi - lo).toNat lo s

/-- The constant `maxTrials` of both simulations. -/
def maxTrials : ℤ := 30

/-- The constant `epsilon` of `runEGSimulation`, as a float64. -/
def epsilon : ℚ := round64 (15 / 100)

/-- The arms both simulations start from. -/
def initialArms : List Arm :=
  [ { Trials := 0, Successes := 0, TotalReward := 0,
      SuccessProb := round64 (2 / 10), RewardValue := round64 20 },
    { Trials := 0, Successes := 0, TotalReward := 0,
      SuccessProb := round64 (8 / 10), RewardValue := round64 2 } ]

/-- State of the loop of `runEGSimulation`. -/
structure EGSim extends Sim where
  explorationCount : ℤ

/-- Body of the loop of `runEGSimulation`. -/
def egStep (_i : ℤ) (s : EGSim) : Except Panic EGSim :=
  match chooseArm s.arms epsilon s.rng with
  | .error p => .error p
  | .ok ((choice, exploring), g1) =>
    let cnt : ℤ := if exploring then wrap64 (s.explorationCount + 1) else s.explorationCount
    match playArm { s.toSim with rng := g1 } choice with
    | .error p => .error p
    | .ok s1 => .ok { toSim := s1, explorationCount := cnt }

/-- The value `runEGSimulation` returns from the final arms. -/
def egTotal (arms : List Arm) : ℚ :=
  arms.foldl (fun totalReward arm => fadd totalReward (fmul arm.AvgReward (ofInt arm.Trials))) 0

/-- State of `runEGSimulation` when its loop ends. -/
def runEGFinal (g : Rng) : Except Panic EGSim :=
  forRange egStep 0 maxTrials
    { arms := initialArms, rng := g, played := [], explorationCount := 0 }

/-- The function `runEGSimulation`, on the seeded source `g`. -/
def runEGSimulation (g : Rng) : Except Panic ℚ :=
  match runEGFinal g with
  | .error p => .error p
  | .ok s => .ok (egTotal s.arms)

/-! ## UCB1 -/

/-- The library functions `math.Sqrt` and `math.Log`. -/
structure MathFns where
  Sqrt : ℚ → ℚ
  Log : ℚ → ℚ

/-- The score of one arm in the round with counter `totalTrials`. -/
def ucbScore (M : MathFns) (totalTrials : ℤ) (arm : Arm) : ℚ :=
  let avg := arm.AvgReward
  let bonus := M.Sqrt (fdiv (fmul 2 (M.Log (ofInt totalTrials))) (ofInt arm.Trials))
  fadd avg bonus

/-- The slice `ucbValues` once the inner loop has filled it. -/
def ucbValues (M : MathFns) (totalTrials : ℤ) (arms : List Arm) : List ℚ :=
  arms.map (ucbScore M totalTrials)

/-- The index `choice` computed from `ucbValues`. -/
def ucbChoice (ucb : List ℚ) : Except Panic ℤ :=
  match index ucb 0, index ucb 1 with
  | .error p, _ => .error p
  | .ok _, .error p => .error p
  | .ok u0, .ok u1 => .ok (if u0 > u1 then 0 else 1)

/-- Body of the scoring loop of `runUCBSimulation`. -/
def ucbStep (M : MathFns) (t : ℤ) (s : Sim) : Except Panic Sim :=
  match ucbChoice (ucbValues M t s.arms) with
  | .error p => .error p
  | .ok choice => playArm s choice

/-- The warm-start loop `for i := range arms { arms[i].Play() }`. -/
def ucbWarmStart (g : Rng) : Except Panic Sim :=
  forRange (fun i s => playArm s i) 0 initialArms.length
    { arms := initialArms, rng := g, played := [] }

/-- State of `runUCBSimulation` when its scoring loop ends. -/
def runUCBFinal (M : MathFns) (g : Rng) : Except Panic Sim :=
  match ucbWarmStart g with
  | .error p => .error p
  | .ok s => forRange (ucbStep M) initialArms.length maxTrials s

/-- The value `runUCBSimulation` returns from the final arms. -/
def ucbTotal (arms : List Arm) : Except Panic ℚ :=
  match index arms 0, index arms 1 with
  | .error p, _ => .error p
  | .ok _, .error p => .error p
  | .ok a0, .ok a1 => .ok (fadd a0.TotalReward a1.TotalReward)

/-- The function `runUCBSimulation`, on the seeded source `g`. -/
def runUCBSimulation (M : MathFns) (g : Rng) : Except Panic ℚ :=
  match runUCBFinal M g with
  | .error p => .error p
  | .ok s => ucbTotal s.arms

/-! ## main -/

/-- The constant `nbSimulation` of `main`. -/
def nbSimulation : ℤ := 1000

/-- Body of an averaging loop of `main`: the statement `total += run()`. Every run
seeds the generator again, so run `i` draws from its own source `seeds i`. -/
def addRun (run : Rng → Except Panic ℚ) (seeds : ℤ → Rng) (i : ℤ) (total : ℚ) :
    Except Panic ℚ :=
  match run (seeds i) with
  | .error p => .error p
  | .ok v => .ok (fadd total v)

/-- An averaging loop of `main` over `n` runs, then the division `total / n`. -/
def averageRuns (run : Rng → Except Panic ℚ) (seeds : ℤ → Rng) (n : ℤ) : Except Panic ℚ :=
  match forRange (addRun run seeds) 0 n 0 with
  | .error p => .error p
  | .ok total => .ok (fdiv total (ofInt n))

/-- The function `main`: the two averages it prints. -/
def main (M : MathFns) (seedsEG seedsUCB : ℤ → Rng) : Except Panic (ℚ × ℚ) :=
  match averageRuns runEGSimulation seedsEG nbSimulation with
  | .error p => .error p
  | .ok avgEG =>
    match averageRuns (runUCBSimulation M) seedsUCB nbSimulation with
    | .error p => .error p
    | .ok avgUCB => .ok (avgEG, avgUCB)

/-! ## data of the closed examples and predicates of the statements -/

deriving instance DecidableEq for Except

/-- A source reading the cells of a list, then cells `(0, 0)` for ever. -/
def tapeOf (cells : List Draw) : Rng := { tape := fun i => cells.getD i ⟨0, 0⟩, pos := 0 }

/-- Example arm: two plays, rewards 19 and 10. -/
def armLead : Arm :=
  { Trials := 2, Successes := 2, TotalReward := 29,
    SuccessProb := round64 (2 / 10), RewardValue := round64 20 }

/-- Example arm: one play, nothing paid. -/
def armIdle : Arm :=
  { Trials := 1, Successes := 0, TotalReward := 0,
    SuccessProb := round64 (8 / 10), RewardValue := round64 2 }

/-- The invariant of the data model: `successes ≤ trials` and `total_reward ≥ 0`. -/
def Arm.Inv (a : Arm) : Prop := a.Successes ≤ a.Trials ∧ 0 ≤ a.TotalReward

/-- Sum of the per-arm trial counts. -/
def totalTrials (arms : List Arm) : ℤ := (arms.map Arm.Trials).sum

/-- Loop invariant of both runs: two arms with the reward magnitudes of the
initial arms, whose trial counts are not negative and add up to `n`, after `n`
calls of `Play`. -/
def RunInv (n : ℤ) (s : Sim) : Prop :=
  ∃ a0 a1 : Arm, s.arms = [a0, a1] ∧ a0.RewardValue = 20 ∧ a1.RewardValue = 2 ∧
    0 ≤ a0.Trials ∧ 0 ≤ a1.Trials ∧
    a0.Trials + a1.Trials = n ∧ (s.played.length : ℤ) = n

/-- Invariant of the counters of one arm in a loop with counter `i` that calls
`Play` once per iteration: the invariant of the data model, counts that are not
negative, and at most `i` trials. -/
def CountInv (i : ℤ) (a : Arm) : Prop := a.Inv ∧ 0 ≤ a.Successes ∧ a.Trials ≤ i

/-- A stand-in for the library functions, for closed examples. The theorems
about UCB1 hold for every choice of the two functions. -/
def standInMath : MathFns := { Sqrt := fun x => x, Log := fun x => x }

/-- Arm 0 after a warm-start play that paid nothing. -/
def armTieA : Arm :=
  { Trials := 1, Successes := 0, TotalReward := 0,
    SuccessProb := round64 (2 / 10), RewardValue := round64 20 }

/-- Arm 1 after a warm-start play that paid nothing. -/
def armTieB : Arm :=
  { Trials := 1, Successes := 0, TotalReward := 0,
    SuccessProb := round64 (8 / 10), RewardValue := round64 2 }

/-- A source whose first three plays all miss (draw 7/8). -/
def tieTape : Rng := tapeOf [⟨7 / 8, 0⟩, ⟨7 / 8, 0⟩, ⟨7 / 8, 0⟩]

/-- A source for a run of `runEGSimulation`: arm 0 is exploited seven times and
wins 19 and 10 on its first two plays, then 23 exploration steps play arm 1,
which never wins. -/
def roundingTape : Rng :=
  tapeOf
    ([⟨1 / 2, 0⟩, ⟨1 / 8, 0⟩, ⟨0, 19⟩, ⟨1 / 2, 0⟩, ⟨1 / 8, 0⟩, ⟨0, 10⟩] ++
      (List.replicate 5 [(⟨1 / 2, 0⟩ : Draw), ⟨7 / 8, 0⟩]).flatten ++
      (List.replicate 23 [(⟨1 / 16, 0⟩ : Draw), ⟨7 / 8, 0⟩]).flatten)

/-- Invariant of the UCB1 scoring loop: the run invariant, and every arm has been
played at least once. -/
def ScoreInv (t : ℤ) (s : Sim) : Prop := RunInv t s ∧ ∀ a ∈ s.arms, 1 ≤ a.Trials

/-- Invariant of both runs on the rewards: the totals are integers, at most 19
per play of arm 0 and at most 1 per play of arm 1, and the trial counts are
non-negative and add up to `n`. -/
def RewardInv (n : ℤ) (s : Sim) : Prop :=
  ∃ (a0 a1 : Arm) (z0 z1 : ℤ), s.arms = [a0, a1] ∧
    a0.RewardValue = 20 ∧ a1.RewardValue = 2 ∧
    a0.TotalReward = z0 ∧ a1.TotalReward = z1 ∧
    0 ≤ z0 ∧ z0 ≤ 19 * a0.Trials ∧ 0 ≤ z1 ∧ z1 ≤ a1.Trials ∧
    0 ≤ a0.Trials ∧ 0 ≤ a1.Trials ∧ a0.Trials + a1.Trials = n

/-- Accuracy of the library square root at the argument `x`: the result is not
negative and its square is within a relative `2^-51` of `x` (the square of a
correctly rounded square root is within `2^-52`). -/
def SqrtAccurate (M : MathFns) (x : ℚ) : Prop :=
  0 ≤ M.Sqrt x ∧ x * (1 - 1 / 2 ^ 51) ≤ M.Sqrt x ^ 2 ∧ M.Sqrt x ^ 2 ≤ x * (1 + 1 / 2 ^ 51)

instance (M : MathFns) (x : ℚ) : Decidable (SqrtAccurate M x) := by
  unfold SqrtAccurate; infer_instance

/-- The float64 values of the library at the points of a closed example, a run
whose first three plays pay nothing: `Log(2)` and `Sqrt(2 * Log(2))` for the
round with counter 2 and trial counts 1 and 1; `Log(3)`, `Sqrt(2 * Log(3))` and
`Sqrt(2 * Log(3) / 2)` for the round with counter 3 and trial counts 1 and 2. -/
def sampleMath : MathFns :=
  { Log := fun x =>
      if x = 2 then 6243314768165359 / 2 ^ 53
      else if x = 3 then 4947709893870347 / 2 ^ 52
      else 0,
    Sqrt := fun x =>
      if x = 6243314768165359 / 2 ^ 52 then 5302583338662979 / 2 ^ 52
      else if x = 4947709893870347 / 2 ^ 51 then 6675702874510191 / 2 ^ 52
      else if x = 4947709893870347 / 2 ^ 52 then 1180108692938171 / 2 ^ 50
      else 0 }

/-- Example arm: two plays, nothing paid. -/
def armTwice : Arm :=
  { Trials := 2, Successes := 0, TotalReward := 0,
    SuccessProb := round64 (8 / 10), RewardValue := round64 2 }

/-- Example arm whose two counters hold the largest `int`. -/
def armMaxed : Arm :=
  { Trials := 2 ^ 63 - 1, Successes := 2 ^ 63 - 1, TotalReward := 0,
    SuccessProb := 1 / 2, RewardValue := 2 }

/-- Example arm whose trial count holds the largest `int`, with no success. -/
def armFull : Arm :=
  { Trials := 2 ^ 63 - 1, Successes := 0, TotalReward := 0,
    SuccessProb := 1 / 2, RewardValue := 2 }

/-- Example arm with the reward magnitude `2^53 + 4`, a float64. -/
def armWide : Arm :=
  { Trials := 0, Successes := 0, TotalReward := 0,
    SuccessProb := 1 / 2, RewardValue := 2 ^ 53 + 4 }

theorem log2Aux_spec (fuel : ℕ) : ∀ n : ℕ, 1 ≤ n → n ≤ fuel →
    2 ^ log2Aux fuel n ≤ n ∧ n < 2 ^ (log2Aux fuel n + 1) := by
  induction fuel with
  | zero => intro n h1 h2; omega
  | succ fuel ih =>
    intro n h1 h2
    unfold log2Aux
    by_cases h : 2 ≤ n
    · rw [if_pos h]
      have hh := ih (n / 2) (by omega) (by omega)
      obtain ⟨hlo, hhi⟩ := hh
      rw [pow_succ] at hhi
      constructor
      · rw [pow_succ]; omega
      · rw [pow_succ, pow_succ]; omega
    · rw [if_neg h]
      constructor <;> simp <;> omega

theorem natLog2_spec (n : ℕ) (h : 1 ≤ n) :
    2 ^ natLog2 n ≤ n ∧ n < 2 ^ (natLog2 n + 1) :=
  log2Aux_spec n n h le_rfl

theorem abs_eq_natAbs_div_den (q : ℚ) : |q| = (q.num.natAbs : ℚ) / (q.den : ℚ) := by
  rw [Rat.abs_def, Rat.divInt_eq_div]
  simp [Nat.cast_natAbs]

theorem ilog2_spec (q : ℚ) (hq : q ≠ 0) :
    (2 : ℚ) ^ ilog2 q ≤ |q| ∧ |q| < (2 : ℚ) ^ (ilog2 q + 1) := by
  have hN : 1 ≤ q.num.natAbs := by
    have : q.num ≠ 0 := Rat.num_ne_zero.mpr hq
    omega
  have hD : 1 ≤ q.den := q.den_pos
  obtain ⟨ha1, ha2⟩ := natLog2_spec _ hN
  obtain ⟨hb1, hb2⟩ := natLog2_spec _ hD
  have ha1' : (2 : ℚ) ^ (natLog2 q.num.natAbs) ≤ (q.num.natAbs : ℚ) := by exact_mod_cast ha1
  have ha2' : (q.num.natAbs : ℚ) < (2 : ℚ) ^ (natLog2 q.num.natAbs + 1) := by exact_mod_cast ha2
  have hb1' : (2 : ℚ) ^ (natLog2 q.den) ≤ (q.den : ℚ) := by exact_mod_cast hb1
  have hb2' : (q.den : ℚ) < (2 : ℚ) ^ (natLog2 q.den + 1) := by exact_mod_cast hb2
  have hDpos : (0 : ℚ) < (q.den : ℚ) := by exact_mod_cast q.den_pos
  have habs := abs_eq_natAbs_div_den q
  have h2 : (2 : ℚ) ≠ 0 := by norm_num
  have hpb : (0 : ℚ) < (2 : ℚ) ^ (natLog2 q.den) := by positivity
  unfold ilog2
  simp only
  split_ifs with hc
  · refine ⟨hc, ?_⟩
    rw [habs, div_lt_iff₀ hDpos]
    have e1 : (2 : ℚ) ^ ((natLog2 q.num.natAbs : ℤ) - (natLog2 q.den : ℤ) + 1)
        = (2 : ℚ) ^ (natLog2 q.num.natAbs + 1) / (2 : ℚ) ^ (natLog2 q.den) := by
      rw [show ((natLog2 q.num.natAbs : ℤ) - (natLog2 q.den : ℤ) + 1)
          = ((natLog2 q.num.natAbs + 1 : ℕ) : ℤ) - (natLog2 q.den : ℤ) by push_cast; ring]
      rw [zpow_sub₀ h2, zpow_natCast, zpow_natCast]
    rw [e1, div_mul_eq_mul_div, lt_div_iff₀ hpb]
    calc (q.num.natAbs : ℚ) * 2 ^ natLog2 q.den
        ≤ (q.num.natAbs : ℚ) * q.den := by gcongr
      _ < 2 ^ (natLog2 q.num.natAbs + 1) * q.den := by gcongr
  · have hc' := lt_of_not_ge hc
    constructor
    · rw [habs, le_div_iff₀ hDpos]
      have e1 : (2 : ℚ) ^ ((natLog2 q.num.natAbs : ℤ) - (natLog2 q.den : ℤ) - 1)
          = (2 : ℚ) ^ (natLog2 q.num.natAbs) / (2 : ℚ) ^ (natLog2 q.den + 1) := by
        rw [show ((natLog2 q.num.natAbs : ℤ) - (natLog2 q.den : ℤ) - 1)
            = ((natLog2 q.num.natAbs : ℕ) : ℤ) - ((natLog2 q.den + 1 : ℕ) : ℤ) by push_cast; ring]
        rw [zpow_sub₀ h2, zpow_natCast, zpow_natCast]
      have hpb' : (0 : ℚ) < (2 : ℚ) ^ (natLog2 q.den + 1) := by positivity
      rw [e1, div_mul_eq_mul_div, div_le_iff₀ hpb']
      calc (2 : ℚ) ^ natLog2 q.num.natAbs * q.den
          ≤ (q.num.natAbs : ℚ) * q.den := by gcongr
        _ ≤ (q.num.natAbs : ℚ) * 2 ^ (natLog2 q.den + 1) := by gcongr
    · simpa using hc'

theorem roundHalfEven_bounds (q : ℚ) : ⌊q⌋ ≤ roundHalfEven q ∧ roundHalfEven q ≤ ⌊q⌋ + 1 := by
  unfold roundHalfEven
  simp only
  split_ifs <;> omega

theorem roundHalfEven_intCast (n : ℤ) : roundHalfEven (n : ℚ) = n := by
  unfold roundHalfEven
  simp

theorem roundHalfEven_mono {a b : ℚ} (h : a ≤ b) : roundHalfEven a ≤ roundHalfEven b := by
  have hf : ⌊a⌋ ≤ ⌊b⌋ := Int.floor_mono h
  rcases lt_or_eq_of_le hf with hlt | heq
  · have h1 := (roundHalfEven_bounds a).2
    have h2 := (roundHalfEven_bounds b).1
    omega
  · unfold roundHalfEven
    simp only
    rw [← heq]
    have hr : a - (⌊a⌋ : ℚ) ≤ b - (⌊a⌋ : ℚ) := by linarith
    split_ifs <;> first | omega | (exfalso; linarith)

theorem roundHalfEven_neg (q : ℚ) : roundHalfEven (-q) = -roundHalfEven q := by
  by_cases hint : (⌊q⌋ : ℚ) = q
  · rw [← hint, ← Int.cast_neg, roundHalfEven_intCast, roundHalfEven_intCast]
  · have hlt : (⌊q⌋ : ℚ) < q := lt_of_le_of_ne (Int.floor_le q) hint
    have hlt2 : q < (⌊q⌋ : ℚ) + 1 := Int.lt_floor_add_one q
    have hfl : ⌊-q⌋ = -⌊q⌋ - 1 := by
      rw [Int.floor_eq_iff]
      push_cast
      constructor <;> linarith
    unfold roundHalfEven
    simp only
    rw [hfl]
    push_cast
    split_ifs <;> first | omega | (exfalso; linarith)

theorem roundHalfEven_nonneg {q : ℚ} (h : 0 ≤ q) : 0 ≤ roundHalfEven q := by
  have := roundHalfEven_mono h
  rwa [show ((0 : ℚ)) = ((0 : ℤ) : ℚ) by simp, roundHalfEven_intCast] at this

theorem round64_zero : round64 0 = 0 := by
  unfold round64; simp

theorem round64_nonneg {q : ℚ} (h : 0 ≤ q) : 0 ≤ round64 q := by
  unfold round64
  split_ifs with h0
  · exact le_rfl
  · simp only
    have h2 : (0 : ℚ) < 2 ^ (ilog2 q - 52) := by positivity
    have : 0 ≤ roundHalfEven (q / 2 ^ (ilog2 q - 52)) :=
      roundHalfEven_nonneg (div_nonneg h h2.le)
    have : (0 : ℚ) ≤ (roundHalfEven (q / 2 ^ (ilog2 q - 52)) : ℚ) := by exact_mod_cast this
    positivity

theorem ilog2_neg (q : ℚ) : ilog2 (-q) = ilog2 q := by
  unfold ilog2
  simp

theorem round64_neg (q : ℚ) : round64 (-q) = -round64 q := by
  unfold round64
  by_cases h0 : q = 0
  · simp [h0]
  · have h0' : -q ≠ 0 := neg_ne_zero.mpr h0
    rw [if_neg h0, if_neg h0']
    simp only
    rw [ilog2_neg, neg_div, roundHalfEven_neg]
    push_cast
    ring

theorem ofInt_nonneg {n : ℤ} (h : 0 ≤ n) : 0 ≤ ofInt n := by
  unfold ofInt
  exact round64_nonneg (by exact_mod_cast h)

theorem two_zpow_split (k : ℤ) (n : ℕ) :
    (2 : ℚ) ^ k = (2 : ℚ) ^ n * (2 : ℚ) ^ (k - n) := by
  rw [← zpow_natCast, ← zpow_add₀ (by norm_num : (2 : ℚ) ≠ 0)]
  congr 1
  ring

theorem scaled_bounds {q : ℚ} (hq : 0 < q) :
    (2 : ℚ) ^ 52 ≤ q / 2 ^ (ilog2 q - 52) ∧ q / 2 ^ (ilog2 q - 52) < (2 : ℚ) ^ 53 := by
  obtain ⟨h1, h2⟩ := ilog2_spec q hq.ne'
  rw [abs_of_pos hq] at h1 h2
  have he : (0 : ℚ) < 2 ^ (ilog2 q - 52) := by positivity
  constructor
  · rw [le_div_iff₀ he]
    have := two_zpow_split (ilog2 q) 52
    push_cast at this
    rw [← this]; exact h1
  · rw [div_lt_iff₀ he]
    have := two_zpow_split (ilog2 q + 1) 53
    push_cast at this
    rw [show ilog2 q + 1 - 53 = ilog2 q - 52 by ring] at this
    rw [← this]; exact h2

theorem roundHalfEven_scaled_bounds {q : ℚ} (hq : 0 < q) :
    (2 : ℤ) ^ 52 ≤ roundHalfEven (q / 2 ^ (ilog2 q - 52)) ∧
      roundHalfEven (q / 2 ^ (ilog2 q - 52)) ≤ (2 : ℤ) ^ 53 := by
  obtain ⟨h1, h2⟩ := scaled_bounds hq
  constructor
  · have := roundHalfEven_mono h1
    rwa [show ((2 : ℚ) ^ 52) = (((2 : ℤ) ^ 52 : ℤ) : ℚ) by push_cast; rfl,
      roundHalfEven_intCast] at this
  · have := roundHalfEven_mono h2.le
    rwa [show ((2 : ℚ) ^ 53) = (((2 : ℤ) ^ 53 : ℤ) : ℚ) by push_cast; rfl,
      roundHalfEven_intCast] at this

theorem round64_pos_bounds {q : ℚ} (hq : 0 < q) :
    (2 : ℚ) ^ ilog2 q ≤ round64 q ∧ round64 q ≤ (2 : ℚ) ^ (ilog2 q + 1) := by
  obtain ⟨h1, h2⟩ := roundHalfEven_scaled_bounds hq
  have he : (0 : ℚ) < 2 ^ (ilog2 q - 52) := by positivity
  have e1 := two_zpow_split (ilog2 q) 52
  have e2 := two_zpow_split (ilog2 q + 1) 53
  push_cast at e1 e2
  rw [show ilog2 q + 1 - 53 = ilog2 q - 52 by ring] at e2
  have h1' : (2 : ℚ) ^ 52 ≤ (roundHalfEven (q / 2 ^ (ilog2 q - 52)) : ℚ) := by exact_mod_cast h1
  have h2' : (roundHalfEven (q / 2 ^ (ilog2 q - 52)) : ℚ) ≤ (2 : ℚ) ^ 53 := by exact_mod_cast h2
  unfold round64
  rw [if_neg hq.ne']
  simp only
  rw [e1, e2]
  constructor
  · exact mul_le_mul_of_nonneg_right h1' he.le
  · exact mul_le_mul_of_nonneg_right h2' he.le

theorem ilog2_mono_pos {x y : ℚ} (hx : 0 < x) (hxy : x ≤ y) : ilog2 x ≤ ilog2 y := by
  have hy : 0 < y := lt_of_lt_of_le hx hxy
  obtain ⟨h1, _⟩ := ilog2_spec x hx.ne'
  obtain ⟨_, h2⟩ := ilog2_spec y hy.ne'
  rw [abs_of_pos hx] at h1
  rw [abs_of_pos hy] at h2
  have : (2 : ℚ) ^ ilog2 x < (2 : ℚ) ^ (ilog2 y + 1) := lt_of_le_of_lt (le_trans h1 hxy) h2
  rw [zpow_lt_zpow_iff_right₀ (by norm_num : (1 : ℚ) < 2)] at this
  omega

theorem round64_mono_pos {x y : ℚ} (hx : 0 < x) (hxy : x ≤ y) : round64 x ≤ round64 y := by
  have hy : 0 < y := lt_of_lt_of_le hx hxy
  rcases lt_or_eq_of_le (ilog2_mono_pos hx hxy) with hlt | heq
  · calc round64 x ≤ (2 : ℚ) ^ (ilog2 x + 1) := (round64_pos_bounds hx).2
      _ ≤ (2 : ℚ) ^ ilog2 y := zpow_le_zpow_right₀ (by norm_num) (by omega)
      _ ≤ round64 y := (round64_pos_bounds hy).1
  · unfold round64
    rw [if_neg hx.ne', if_neg hy.ne']
    simp only
    rw [heq]
    have he : (0 : ℚ) < 2 ^ (ilog2 y - 52) := by positivity
    have : roundHalfEven (x / 2 ^ (ilog2 y - 52)) ≤ roundHalfEven (y / 2 ^ (ilog2 y - 52)) :=
      roundHalfEven_mono (div_le_div_of_nonneg_right hxy he.le)
    have : (roundHalfEven (x / 2 ^ (ilog2 y - 52)) : ℚ) ≤ roundHalfEven (y / 2 ^ (ilog2 y - 52)) := by
      exact_mod_cast this
    exact mul_le_mul_of_nonneg_right this he.le

theorem round64_mono {x y : ℚ} (hxy : x ≤ y) : round64 x ≤ round64 y := by
  rcases lt_trichotomy x 0 with hx | hx | hx
  · rcases lt_or_le y 0 with hy | hy
    · have := round64_mono_pos (neg_pos.mpr hy) (neg_le_neg hxy)
      rw [round64_neg, round64_neg] at this
      linarith
    · have h1 := round64_nonneg (neg_pos.mpr hx).le
      rw [round64_neg] at h1
      have h2 := round64_nonneg hy
      linarith
  · rw [hx, round64_zero]; exact round64_nonneg (hx ▸ hxy)
  · exact round64_mono_pos hx hxy

theorem fadd_ge_left {x r : ℚ} (hx : IsF64 x) (hr : 0 ≤ r) : x ≤ fadd x r := by
  unfold fadd
  calc x = round64 x := hx.symm
    _ ≤ round64 (x + r) := round64_mono (by linarith)

theorem roundHalfEven_scale_ge (m j e : ℤ) (h : e ≤ j) :
    (roundHalfEven ((m : ℚ) * 2 ^ j / 2 ^ e) : ℚ) * 2 ^ e = (m : ℚ) * 2 ^ j := by
  have h2 : (2 : ℚ) ≠ 0 := by norm_num
  obtain ⟨d, hd⟩ := Int.eq_ofNat_of_zero_le (by omega : 0 ≤ j - e)
  have hj : j = (d : ℤ) + e := by omega
  subst hj
  have e1 : (m : ℚ) * 2 ^ ((d : ℤ) + e) / 2 ^ e = ((m * 2 ^ d : ℤ) : ℚ) := by
    rw [zpow_add₀ h2, zpow_natCast]
    push_cast
    field_simp
    ring
  rw [e1, roundHalfEven_intCast, zpow_add₀ h2, zpow_natCast]
  push_cast
  ring

theorem roundHalfEven_scale_half (m j : ℤ) (hdiv : (2 : ℤ) ∣ m) :
    (roundHalfEven ((m : ℚ) * 2 ^ j / 2 ^ (j + 1)) : ℚ) * 2 ^ (j + 1) = (m : ℚ) * 2 ^ j := by
  have h2 : (2 : ℚ) ≠ 0 := by norm_num
  obtain ⟨c, rfl⟩ := hdiv
  have e1 : ((2 * c : ℤ) : ℚ) * 2 ^ j / 2 ^ (j + 1) = ((c : ℤ) : ℚ) := by
    rw [zpow_add₀ h2]
    push_cast
    field_simp
    ring
  rw [e1, roundHalfEven_intCast, zpow_add₀ h2]
  push_cast
  ring

theorem round64_exact (m j : ℤ) (hm : |m| ≤ 2 ^ 53) :
    round64 ((m : ℚ) * 2 ^ j) = (m : ℚ) * 2 ^ j := by
  have h2 : (2 : ℚ) ≠ 0 := by norm_num
  by_cases hm0 : m = 0
  · simp [hm0, round64_zero]
  have hq : (m : ℚ) * 2 ^ j ≠ 0 := by
    have : (m : ℚ) ≠ 0 := by exact_mod_cast hm0
    positivity
  obtain ⟨hlo, _⟩ := ilog2_spec _ hq
  have habs : |(m : ℚ) * 2 ^ j| = (|m| : ℤ) * (2 : ℚ) ^ j := by
    rw [abs_mul, abs_of_pos (by positivity : (0 : ℚ) < 2 ^ j)]
    push_cast; rfl
  have hmq : ((|m| : ℤ) : ℚ) ≤ (2 : ℚ) ^ 53 := by exact_mod_cast hm
  have hk : ilog2 ((m : ℚ) * 2 ^ j) ≤ 53 + j := by
    have h3 : (2 : ℚ) ^ ilog2 ((m : ℚ) * 2 ^ j) ≤ (2 : ℚ) ^ (53 + j) := by
      calc (2 : ℚ) ^ ilog2 ((m : ℚ) * 2 ^ j) ≤ |(m : ℚ) * 2 ^ j| := hlo
        _ = (|m| : ℤ) * (2 : ℚ) ^ j := habs
        _ ≤ (2 : ℚ) ^ 53 * (2 : ℚ) ^ j := by gcongr
        _ = (2 : ℚ) ^ (53 + j) := by
          rw [zpow_add₀ h2]; norm_cast
    exact (zpow_le_zpow_iff_right₀ (by norm_num : (1 : ℚ) < 2)).mp h3
  unfold round64
  rw [if_neg hq]
  simp only
  rcases le_or_lt (ilog2 ((m : ℚ) * 2 ^ j) - 52) j with hge | hlt
  · exact roundHalfEven_scale_ge m j _ hge
  · have hj : ilog2 ((m : ℚ) * 2 ^ j) - 52 = j + 1 := by omega
    have hk' : ilog2 ((m : ℚ) * 2 ^ j) = 53 + j := by omega
    have hm53 : (2 : ℚ) ^ 53 ≤ ((|m| : ℤ) : ℚ) := by
      have h3 : (2 : ℚ) ^ 53 * (2 : ℚ) ^ j ≤ (|m| : ℤ) * (2 : ℚ) ^ j := by
        calc (2 : ℚ) ^ 53 * (2 : ℚ) ^ j = (2 : ℚ) ^ ilog2 ((m : ℚ) * 2 ^ j) := by
              rw [hk', zpow_add₀ h2]; norm_cast
          _ ≤ |(m : ℚ) * 2 ^ j| := hlo
          _ = (|m| : ℤ) * (2 : ℚ) ^ j := habs
      exact le_of_mul_le_mul_right h3 (by positivity)
    have hm53' : (2 : ℤ) ^ 53 ≤ |m| := by exact_mod_cast hm53
    have hmeq : |m| = 2 ^ 53 := le_antisymm hm hm53'
    have hdiv : (2 : ℤ) ∣ m := by
      rcases abs_eq (by norm_num : (0 : ℤ) ≤ 2 ^ 53) |>.mp hmeq with h | h
      · rw [h]; norm_num
      · rw [h]; norm_num
    rw [hj]
    exact roundHalfEven_scale_half m j hdiv

theorem round64_intCast {n : ℤ} (hn : |n| ≤ 2 ^ 53) : round64 (n : ℚ) = n := by
  have := round64_exact n 0 hn
  simpa using this

theorem ofInt_exact {n : ℤ} (hn : |n| ≤ 2 ^ 53) : ofInt n = n :=
  round64_intCast hn

theorem roundHalfEven_scaled_abs (q : ℚ) (hq : q ≠ 0) :
    |roundHalfEven (q / 2 ^ (ilog2 q - 52))| ≤ 2 ^ 53 := by
  rcases lt_or_gt_of_ne hq with hneg | hpos
  · have hp : 0 < -q := neg_pos.mpr hneg
    obtain ⟨h1, h2⟩ := roundHalfEven_scaled_bounds hp
    rw [ilog2_neg, neg_div, roundHalfEven_neg] at h1 h2
    rw [abs_le]
    constructor <;> omega
  · obtain ⟨h1, h2⟩ := roundHalfEven_scaled_bounds hpos
    rw [abs_le]
    constructor <;> omega

theorem round64_idem (q : ℚ) : round64 (round64 q) = round64 q := by
  by_cases hq : q = 0
  · rw [hq, round64_zero, round64_zero]
  · have : round64 q = (roundHalfEven (q / 2 ^ (ilog2 q - 52)) : ℚ) * 2 ^ (ilog2 q - 52) := by
      unfold round64
      rw [if_neg hq]
    rw [this]
    exact round64_exact _ _ (roundHalfEven_scaled_abs q hq)

theorem isF64_round64 (q : ℚ) : IsF64 (round64 q) := round64_idem q

set_option maxRecDepth 100000 in
theorem round64_sample_values :
    round64 (1 / 10) = 3602879701896397 / 36028797018963968 ∧
    round64 (15 / 100) = 5404319552844595 / 36028797018963968 ∧
    round64 (2 / 10) = 3602879701896397 / 18014398509481984 ∧
    round64 (8 / 10) = 3602879701896397 / 4503599627370496 ∧
    round64 (2 ^ 53 + 1) = 2 ^ 53 ∧ round64 (2 ^ 53 + 3) = 2 ^ 53 + 4 ∧
    round64 20 = 20 ∧ round64 2 = 2 := by
  refine ⟨by decide!, by decide!, by decide!, by decide!, by decide!, by decide!,
    by decide!, by decide!⟩

/-! ## int, Play and chooseArm: case lemmas -/

theorem wrap64_eq {n : ℤ} (h : IsInt64 n) : wrap64 n = n := by
  obtain ⟨h1, h2⟩ := h
  unfold wrap64
  omega

theorem wrap64_succ {n : ℤ} (h0 : -2 ^ 63 ≤ n) (h1 : n < 2 ^ 63 - 1) :
    wrap64 (n + 1) = n + 1 :=
  wrap64_eq ⟨by omega, by omega⟩

theorem wrap64_isInt64 (n : ℤ) : IsInt64 (wrap64 n) := by
  unfold wrap64 IsInt64
  omega

theorem wrap64_succ_ne (n : ℤ) : wrap64 (n + 1) ≠ n := by
  unfold wrap64
  omega

theorem Play_miss (a : Arm) (g : Rng) (h : ¬ g.Float64.1 < a.SuccessProb) :
    a.Play g = .ok ({ a with Trials := wrap64 (a.Trials + 1) }, g.next) := by
  have h' : ¬ (g.tape g.pos).u < a.SuccessProb := h
  simp [Arm.Play, Rng.Float64, h']

theorem Play_hit (a : Arm) (g : Rng) (h : g.Float64.1 < a.SuccessProb)
    (hn : 0 < toInt a.RewardValue) :
    a.Play g = .ok ({ a with
        Trials := wrap64 (a.Trials + 1), Successes := wrap64 (a.Successes + 1),
        TotalReward := fadd a.TotalReward
          (ofInt (((g.next.tape g.next.pos).k : ℤ) % toInt a.RewardValue)) },
      g.next.next) := by
  have h' : (g.tape g.pos).u < a.SuccessProb := h
  have hn' : ¬ toInt a.RewardValue ≤ 0 := not_le.mpr hn
  simp [Arm.Play, Rng.Float64, Rng.Intn, h', hn']

theorem Play_panic (a : Arm) (g : Rng) (h : g.Float64.1 < a.SuccessProb)
    (hn : toInt a.RewardValue ≤ 0) :
    a.Play g = .error .intnNonPositive := by
  have h' : (g.tape g.pos).u < a.SuccessProb := h
  simp [Arm.Play, Rng.Float64, Rng.Intn, h', hn]

theorem Play_ok_cases (a a1 : Arm) (g g1 : Rng) (h : a.Play g = .ok (a1, g1)) :
    (¬ g.Float64.1 < a.SuccessProb ∧ a1 = { a with Trials := wrap64 (a.Trials + 1) } ∧
      g1 = g.next) ∨
    (g.Float64.1 < a.SuccessProb ∧ 0 < toInt a.RewardValue ∧
      a1 = { a with
        Trials := wrap64 (a.Trials + 1), Successes := wrap64 (a.Successes + 1),
        TotalReward := fadd a.TotalReward
          (ofInt (((g.next.tape g.next.pos).k : ℤ) % toInt a.RewardValue)) } ∧
      g1 = g.next.next) := by
  by_cases hd : g.Float64.1 < a.SuccessProb
  · right
    rcases le_or_lt (toInt a.RewardValue) 0 with hn | hn
    · rw [Play_panic a g hd hn] at h
      cases h
    · rw [Play_hit a g hd hn] at h
      injection h with h
      injection h with h1 h2
      exact ⟨hd, hn, h1.symm, h2.symm⟩
  · left
    rw [Play_miss a g hd] at h
    injection h with h
    injection h with h1 h2
    exact ⟨hd, h1.symm, h2.symm⟩

theorem PlayReceiver_miss (a : Arm) (g : Rng) (h : ¬ g.Float64.1 < a.SuccessProb) :
    a.PlayReceiver g = { a with Trials := wrap64 (a.Trials + 1) } := by
  have h' : ¬ (g.tape g.pos).u < a.SuccessProb := h
  simp [Arm.PlayReceiver, Rng.Float64, h']

theorem PlayReceiver_hit (a : Arm) (g : Rng) (h : g.Float64.1 < a.SuccessProb)
    (hn : 0 < toInt a.RewardValue) :
    a.PlayReceiver g = { a with
        Trials := wrap64 (a.Trials + 1), Successes := wrap64 (a.Successes + 1),
        TotalReward := fadd a.TotalReward
          (ofInt (((g.next.tape g.next.pos).k : ℤ) % toInt a.RewardValue)) } := by
  have h' : (g.tape g.pos).u < a.SuccessProb := h
  have hn' : ¬ toInt a.RewardValue ≤ 0 := not_le.mpr hn
  simp [Arm.PlayReceiver, Rng.Float64, Rng.Intn, h', hn']

theorem PlayReceiver_panic (a : Arm) (g : Rng) (h : g.Float64.1 < a.SuccessProb)
    (hn : toInt a.RewardValue ≤ 0) :
    a.PlayReceiver g
      = { a with Trials := wrap64 (a.Trials + 1), Successes := wrap64 (a.Successes + 1) } := by
  have h' : (g.tape g.pos).u < a.SuccessProb := h
  simp [Arm.PlayReceiver, Rng.Float64, Rng.Intn, h', hn]

theorem toInt_of_range {x : ℚ} (h0 : 0 ≤ x) (h1 : x < 2 ^ 63) : toInt x = ⌊x⌋ := by
  have hf0 : (0 : ℤ) ≤ ⌊x⌋ := Int.floor_nonneg.mpr h0
  have hf1 : ⌊x⌋ < 2 ^ 63 := by
    rw [Int.floor_lt]
    push_cast
    exact h1
  simp only [toInt, if_pos h0]
  rw [if_pos ⟨by omega, hf1⟩]

theorem toInt_neg {x : ℚ} (h : x < 0) : toInt x ≤ 0 := by
  have hc : ⌈x⌉ ≤ 0 := Int.ceil_le.mpr (by push_cast; linarith)
  simp only [toInt, if_neg (not_le.mpr h)]
  split_ifs
  · exact hc
  · norm_num

theorem toInt_big {x : ℚ} (h : 2 ^ 63 ≤ x) : toInt x = -2 ^ 63 := by
  have h0 : (0 : ℚ) ≤ x := le_trans (by norm_num) h
  have hf : (2 : ℤ) ^ 63 ≤ ⌊x⌋ := by
    rw [Int.le_floor]
    push_cast
    exact h
  simp only [toInt, if_pos h0]
  rw [if_neg (by omega)]

theorem toInt_le_zero_iff (x : ℚ) : toInt x ≤ 0 ↔ (x < 1 ∨ 2 ^ 63 ≤ x) := by
  rcases lt_or_le x 0 with hneg | h0
  · exact ⟨fun _ => Or.inl (by linarith), fun _ => toInt_neg hneg⟩
  · rcases lt_or_le x (2 ^ 63) with h1 | h1
    · rw [toInt_of_range h0 h1, ← Int.lt_add_one_iff, Int.floor_lt]
      constructor
      · intro h
        left
        simpa using h
      · rintro (h | h)
        · simpa using h
        · linarith
    · rw [toInt_big h1]
      exact ⟨fun _ => Or.inr h1, fun _ => by norm_num⟩

theorem toInt_pos_range {x : ℚ} (hx : 0 < toInt x) : 1 ≤ x ∧ x < 2 ^ 63 := by
  have := (toInt_le_zero_iff x).not.mp (not_le.mpr hx)
  push_neg at this
  exact this

theorem toInt_le_self {x : ℚ} (hx : 0 < toInt x) : ((toInt x : ℤ) : ℚ) ≤ x := by
  obtain ⟨h1, h2⟩ := toInt_pos_range hx
  rw [toInt_of_range (by linarith) h2]
  exact Int.floor_le x

theorem toInt_intCast {m : ℤ} (h0 : 0 ≤ m) (h1 : m < 2 ^ 63) : toInt (m : ℚ) = m := by
  rw [toInt_of_range (by exact_mod_cast h0) (by exact_mod_cast h1)]
  exact Int.floor_intCast m

theorem toInt_isInt64 (x : ℚ) : IsInt64 (toInt x) := by
  unfold toInt IsInt64
  simp only
  split_ifs with h1 h2 h3
  · exact h2
  · norm_num
  · exact h3
  · norm_num

theorem chooseArm_cons (a0 a1 : Arm) (rest : List Arm) (eps : ℚ) (g : Rng) :
    chooseArm (a0 :: a1 :: rest) eps g =
      if g.Float64.1 < eps then
        if a0.AvgReward > a1.AvgReward then .ok ((1, true), g.next)
        else if a1.AvgReward > a0.AvgReward then .ok ((0, true), g.next)
        else .ok ((((g.next.tape g.next.pos).k : ℤ) % 2, true), g.next.next)
      else if a0.AvgReward > a1.AvgReward then .ok ((0, false), g.next)
      else if a1.AvgReward > a0.AvgReward then .ok ((1, false), g.next)
      else if a0.Trials ≤ a1.Trials then .ok ((0, false), g.next)
      else .ok ((1, false), g.next) := by
  simp only [chooseArm, index, Rng.Float64, Rng.Intn]
  simp only [Int.toNat_zero, Int.toNat_one, List.getElem?_cons_zero, List.getElem?_cons_succ,
    lt_irrefl, if_false, decide_eq_true_eq]
  norm_num

theorem index_cons_zero {α : Type} (a : α) (rest : List α) : index (a :: rest) 0 = .ok a := by
  simp [index]

theorem index_cons_one {α : Type} (a b : α) (rest : List α) :
    index (a :: b :: rest) 1 = .ok b := by
  simp [index]

theorem playArm_zero (a0 a1 : Arm) (g : Rng) (log : List ℤ) :
    playArm ⟨[a0, a1], g, log⟩ 0
      = (a0.Play g).map (fun r => (⟨[r.1, a1], r.2, log ++ [0]⟩ : Sim)) := by
  unfold playArm
  rw [index_cons_zero]
  cases h : a0.Play g with
  | error p => simp [Except.map, h]
  | ok r => obtain ⟨x, y⟩ := r; simp [Except.map, h]

theorem playArm_one (a0 a1 : Arm) (g : Rng) (log : List ℤ) :
    playArm ⟨[a0, a1], g, log⟩ 1
      = (a1.Play g).map (fun r => (⟨[a0, r.1], r.2, log ++ [1]⟩ : Sim)) := by
  unfold playArm
  rw [index_cons_one]
  cases h : a1.Play g with
  | error p => simp [Except.map, h]
  | ok r => obtain ⟨x, y⟩ := r; simp [Except.map, h]

theorem toInt_twenty : toInt 20 = 20 := by
  have := toInt_intCast (m := 20) (by norm_num) (by norm_num)
  simpa using this

theorem toInt_two : toInt 2 = 2 := by
  have := toInt_intCast (m := 2) (by norm_num) (by norm_num)
  simpa using this

theorem Play_total (a : Arm) (g : Rng) (hn : 0 < toInt a.RewardValue) :
    ∃ a1 g1, a.Play g = .ok (a1, g1) ∧ a1.Trials = wrap64 (a.Trials + 1) ∧
      a1.RewardValue = a.RewardValue ∧ a1.SuccessProb = a.SuccessProb := by
  by_cases hd : g.Float64.1 < a.SuccessProb
  · exact ⟨_, _, Play_hit a g hd hn, rfl, rfl, rfl⟩
  · exact ⟨_, _, Play_miss a g hd, rfl, rfl, rfl⟩

theorem playArm_pair (a0 a1 : Arm) (g : Rng) (log : List ℤ) (c : ℤ) (hc : c = 0 ∨ c = 1)
    (h0 : 0 < toInt a0.RewardValue) (h1 : 0 < toInt a1.RewardValue) :
    ∃ (b0 b1 : Arm) (g1 : Rng),
      playArm ⟨[a0, a1], g, log⟩ c = .ok ⟨[b0, b1], g1, log ++ [c]⟩ ∧
      b0.RewardValue = a0.RewardValue ∧ b1.RewardValue = a1.RewardValue ∧
      ((c = 0 ∧ b0.Trials = wrap64 (a0.Trials + 1) ∧ b1 = a1) ∨
        (c = 1 ∧ b0 = a0 ∧ b1.Trials = wrap64 (a1.Trials + 1))) := by
  rcases hc with rfl | rfl
  · obtain ⟨b, g1, hp, ht, hr, _⟩ := Play_total a0 g h0
    refine ⟨b, a1, g1, ?_, hr, rfl, Or.inl ⟨rfl, ht, rfl⟩⟩
    rw [playArm_zero, hp]; rfl
  · obtain ⟨b, g1, hp, ht, hr, _⟩ := Play_total a1 g h1
    refine ⟨a0, b, g1, ?_, rfl, hr, Or.inr ⟨rfl, rfl, ht⟩⟩
    rw [playArm_one, hp]; rfl

theorem playArm_runInv (n : ℤ) (s : Sim) (choice : ℤ) (hn : n < 2 ^ 63 - 1) (hinv : RunInv n s)
    (hc : choice = 0 ∨ choice = 1) :
    ∃ s1, playArm s choice = .ok s1 ∧ RunInv (n + 1) s1 ∧ s1.played = s.played ++ [choice] ∧
      ((∀ a ∈ s.arms, 1 ≤ a.Trials) → ∀ a ∈ s1.arms, 1 ≤ a.Trials) := by
  obtain ⟨a0, a1, harms, h0, h1, ht0, ht1, hsum, hlen⟩ := hinv
  obtain ⟨arms, g, log⟩ := s
  simp only at harms hlen
  subst harms
  obtain ⟨b0, b1, g1, hp, hr0, hr1, hcase⟩ := playArm_pair a0 a1 g log choice hc
    (by rw [h0, toInt_twenty]; norm_num) (by rw [h1, toInt_two]; norm_num)
  have hlen1 : (((log ++ [choice]).length : ℕ) : ℤ) = n + 1 := by
    simp only [List.length_append, List.length_singleton]; push_cast; omega
  refine ⟨_, hp, ?_, rfl, ?_⟩
  · rcases hcase with ⟨_, hb, rfl⟩ | ⟨_, rfl, hb⟩
    · rw [wrap64_succ (by omega) (by omega)] at hb
      exact ⟨b0, b1, rfl, by rw [hr0, h0], h1, by omega, ht1, by omega, hlen1⟩
    · rw [wrap64_succ (by omega) (by omega)] at hb
      exact ⟨b0, b1, rfl, h0, by rw [hr1, h1], ht0, by omega, by omega, hlen1⟩
  · intro hpos a ha
    have hp0 := hpos a0 (by simp)
    have hp1 := hpos a1 (by simp)
    simp only [List.mem_cons, List.mem_singleton, List.not_mem_nil, or_false] at ha
    rcases hcase with ⟨_, hb, rfl⟩ | ⟨_, rfl, hb⟩
    · rw [wrap64_succ (by omega) (by omega)] at hb
      rcases ha with rfl | rfl
      · omega
      · exact hp1
    · rw [wrap64_succ (by omega) (by omega)] at hb
      rcases ha with rfl | rfl
      · exact hp0
      · omega

theorem chooseArm_total (a0 a1 : Arm) (rest : List Arm) (eps : ℚ) (g : Rng) :
    ∃ c b g1, chooseArm (a0 :: a1 :: rest) eps g = .ok ((c, b), g1) ∧ (c = 0 ∨ c = 1) := by
  rw [chooseArm_cons]
  split_ifs
  · exact ⟨_, _, _, rfl, Or.inr rfl⟩
  · exact ⟨_, _, _, rfl, Or.inl rfl⟩
  · exact ⟨_, _, _, rfl, by omega⟩
  · exact ⟨_, _, _, rfl, Or.inl rfl⟩
  · exact ⟨_, _, _, rfl, Or.inr rfl⟩
  · exact ⟨_, _, _, rfl, Or.inl rfl⟩
  · exact ⟨_, _, _, rfl, Or.inr rfl⟩

/-! ## loops and runs -/

theorem forLoop_total_upto {σ : Type} (body : ℤ → σ → Except Panic σ) (P : ℤ → σ → Prop)
    (B : ℤ) (hstep : ∀ i s, i < B → P i s → ∃ s1, body i s = .ok s1 ∧ P (i + 1) s1) :
    ∀ (n : ℕ) (i : ℤ) (s : σ), i + n ≤ B → P i s →
      ∃ s1, forLoop body n i s = .ok s1 ∧ P (i + n) s1 := by
  intro n
  induction n with
  | zero =>
    intro i s _ h
    exact ⟨s, rfl, by simpa using h⟩
  | succ n ih =>
    intro i s hB h
    push_cast at hB
    obtain ⟨s1, hb, hp⟩ := hstep i s (by omega) h
    obtain ⟨s2, hl, hq⟩ := ih (i + 1) s1 (by omega) hp
    refine ⟨s2, ?_, ?_⟩
    · simp only [forLoop, hb]; exact hl
    · have e : i + ((n + 1 : ℕ) : ℤ) = i + 1 + (n : ℤ) := by push_cast; ring
      rw [e]; exact hq

theorem forLoop_preserves_upto {σ : Type} (body : ℤ → σ → Except Panic σ) (P : ℤ → σ → Prop)
    (B : ℤ) (hstep : ∀ i s s1, i < B → P i s → body i s = .ok s1 → P (i + 1) s1) :
    ∀ (n : ℕ) (i : ℤ) (s s1 : σ), i + n ≤ B → P i s → forLoop body n i s = .ok s1 →
      P (i + n) s1 := by
  intro n
  induction n with
  | zero =>
    intro i s s1 _ h hl
    simp only [forLoop] at hl
    injection hl with hl
    subst hl
    simpa using h
  | succ n ih =>
    intro i s s1 hB h hl
    push_cast at hB
    simp only [forLoop] at hl
    cases hb : body i s with
    | error p => rw [hb] at hl; cases hl
    | ok s2 =>
      rw [hb] at hl
      have e : i + ((n + 1 : ℕ) : ℤ) = i + 1 + (n : ℤ) := by push_cast; ring
      rw [e]
      exact ih (i + 1) s2 s1 (by omega) (hstep i s s2 (by omega) h hb) hl

theorem forLoop_preserves_idx {σ : Type} (body : ℤ → σ → Except Panic σ) (P : ℤ → σ → Prop)
    (hstep : ∀ i s s1, P i s → body i s = .ok s1 → P (i + 1) s1) :
    ∀ (n : ℕ) (i : ℤ) (s s1 : σ), P i s → forLoop body n i s = .ok s1 → P (i + n) s1 := by
  intro n
  induction n with
  | zero =>
    intro i s s1 h hl
    simp only [forLoop] at hl
    injection hl with hl
    subst hl
    simpa using h
  | succ n ih =>
    intro i s s1 h hl
    simp only [forLoop] at hl
    cases hb : body i s with
    | error p => rw [hb] at hl; cases hl
    | ok s2 =>
      rw [hb] at hl
      have e : i + ((n + 1 : ℕ) : ℤ) = i + 1 + (n : ℤ) := by push_cast; ring
      rw [e]
      exact ih (i + 1) s2 s1 (hstep i s s2 h hb) hl

theorem initial_runInv (g : Rng) : RunInv 0 ⟨initialArms, g, []⟩ := by
  refine ⟨_, _, rfl, ?_, ?_, le_rfl, le_rfl, rfl, rfl⟩
  · show round64 20 = 20
    decide!
  · show round64 2 = 2
    decide!

theorem egStep_runInv (i : ℤ) (s : EGSim) (hi : i < 2 ^ 63 - 1) (h : RunInv i s.toSim) :
    ∃ s1, egStep i s = .ok s1 ∧ RunInv (i + 1) s1.toSim := by
  obtain ⟨⟨arms, g, log⟩, cnt⟩ := s
  obtain ⟨a0, a1, harms, h0, h1, ht0, ht1, hsum, hlen⟩ := h
  simp only at harms hlen
  subst harms
  obtain ⟨c, b, g1, hc, hc01⟩ := chooseArm_total a0 a1 [] epsilon g
  have hinv : RunInv i ⟨[a0, a1], g1, log⟩ := ⟨a0, a1, rfl, h0, h1, ht0, ht1, hsum, hlen⟩
  obtain ⟨s1, hp, hq, _⟩ := playArm_runInv i _ c hi hinv hc01
  refine ⟨{ toSim := s1, explorationCount := if b then wrap64 (cnt + 1) else cnt }, ?_, hq⟩
  simp only [egStep, hc, hp]

theorem ucbChoice_total (M : MathFns) (t : ℤ) (a0 a1 : Arm) :
    ucbChoice (ucbValues M t [a0, a1])
      = .ok (if ucbScore M t a0 > ucbScore M t a1 then 0 else 1) := by
  simp [ucbChoice, ucbValues, index]

theorem ucbStep_eq_playArm (M : MathFns) (t : ℤ) (a0 a1 : Arm) (g : Rng) (log : List ℤ) :
    ucbStep M t ⟨[a0, a1], g, log⟩
      = playArm ⟨[a0, a1], g, log⟩ (if ucbScore M t a0 > ucbScore M t a1 then 0 else 1) := by
  unfold ucbStep
  rw [ucbChoice_total]

theorem ucbStep_scoreInv (M : MathFns) (t : ℤ) (s : Sim) (ht : t < 2 ^ 63 - 1)
    (h : ScoreInv t s) : ∃ s1, ucbStep M t s = .ok s1 ∧ ScoreInv (t + 1) s1 := by
  obtain ⟨hrun, hpos⟩ := h
  obtain ⟨a0, a1, harms, _⟩ := id hrun
  have hc : ucbChoice (ucbValues M t s.arms)
      = .ok (if ucbScore M t a0 > ucbScore M t a1 then 0 else 1) := by
    rw [harms]; exact ucbChoice_total M t a0 a1
  have hc01 : (if ucbScore M t a0 > ucbScore M t a1 then (0 : ℤ) else 1) = 0 ∨
      (if ucbScore M t a0 > ucbScore M t a1 then (0 : ℤ) else 1) = 1 := by
    split_ifs
    · exact Or.inl rfl
    · exact Or.inr rfl
  obtain ⟨s1, hp, hq, _, hpos1⟩ := playArm_runInv t s _ ht hrun hc01
  refine ⟨s1, ?_, hq, hpos1 hpos⟩
  unfold ucbStep
  rw [hc]
  exact hp

theorem warmStart_arms (g : Rng) :
    ∃ (b c : Arm) (g1 g2 : Rng),
      playArm ⟨initialArms, g, []⟩ 0 = .ok ⟨[b, initialArms.getD 1 b], g1, [0]⟩ ∧
      playArm ⟨[b, initialArms.getD 1 b], g1, [0]⟩ 1 = .ok ⟨[b, c], g2, [0, 1]⟩ ∧
      ucbWarmStart g = .ok ⟨[b, c], g2, [0, 1]⟩ ∧ b.Trials = 1 ∧ c.Trials = 1 ∧
      (initialArms.getD 1 b).Trials = 0 ∧ b.RewardValue = 20 ∧ c.RewardValue = 2 := by
  have hv0 : round64 20 = 20 := by decide!
  have hv1 : round64 2 = 2 := by decide!
  have hr0 : (0 : ℤ) < toInt (round64 20) := by rw [hv0, toInt_twenty]; norm_num
  have hr1 : (0 : ℤ) < toInt (round64 2) := by rw [hv1, toInt_two]; norm_num
  have hw : wrap64 (0 + 1) = 1 := by decide
  obtain ⟨b, g1, hb, hbt, hbr, _⟩ := Play_total
    { Trials := 0, Successes := 0, TotalReward := 0,
      SuccessProb := round64 (2 / 10), RewardValue := round64 20 } g hr0
  obtain ⟨c, g2, hc, hct, hcr, _⟩ := Play_total
    { Trials := 0, Successes := 0, TotalReward := 0,
      SuccessProb := round64 (8 / 10), RewardValue := round64 2 } g1 hr1
  have h1 : playArm ⟨initialArms, g, []⟩ 0 = .ok ⟨[b, initialArms.getD 1 b], g1, [0]⟩ := by
    unfold initialArms
    rw [playArm_zero, hb]
    rfl
  have h2 : playArm ⟨[b, initialArms.getD 1 b], g1, [0]⟩ 1 = .ok ⟨[b, c], g2, [0, 1]⟩ := by
    unfold initialArms
    rw [playArm_one]
    simp only [List.getD_cons_succ, List.getD_cons_zero]
    rw [hc]
    rfl
  simp only at hbt hct hbr hcr
  rw [hw] at hbt hct
  refine ⟨b, c, g1, g2, h1, h2, ?_, hbt, hct, rfl, by rw [hbr, hv0], by rw [hcr, hv1]⟩
  have e : (((initialArms.length : ℕ) : ℤ) - 0).toNat = 2 := by decide
  unfold ucbWarmStart forRange
  rw [e]
  simp only [forLoop, h1]
  have e1 : (0 : ℤ) + 1 = 1 := by norm_num
  rw [e1, h2]

theorem warmStart_scoreInv (g : Rng) :
    ∃ s1 s2, playArm ⟨initialArms, g, []⟩ 0 = .ok s1 ∧ playArm s1 1 = .ok s2 ∧
      ucbWarmStart g = .ok s2 ∧ ScoreInv 2 s2 := by
  obtain ⟨b, c, g1, g2, h1, h2, hw, hb, hc, _, hbr, hcr⟩ := warmStart_arms g
  refine ⟨_, _, h1, h2, hw, ⟨b, c, rfl, hbr, hcr, by omega, by omega, by omega, rfl⟩, ?_⟩
  intro a ha
  simp only [List.mem_cons, List.mem_singleton, List.not_mem_nil, or_false] at ha
  rcases ha with rfl | rfl
  · rw [hb]
  · rw [hc]

theorem totalTrials_pair (a0 a1 : Arm) : totalTrials [a0, a1] = a0.Trials + a1.Trials := by
  simp [totalTrials]

theorem runInv_totalTrials {n : ℤ} {s : Sim} (h : RunInv n s) :
    totalTrials s.arms = n ∧ (s.played.length : ℤ) = n := by
  obtain ⟨a0, a1, harms, _, _, _, _, hsum, hlen⟩ := h
  rw [harms, totalTrials_pair]
  exact ⟨hsum, hlen⟩

theorem runEGFinal_total (g : Rng) :
    ∃ s, runEGFinal g = .ok s ∧ RunInv 30 s.toSim := by
  have h := forLoop_total_upto egStep (fun i s => RunInv i s.toSim) (2 ^ 63 - 1)
    egStep_runInv 30 0
    { arms := initialArms, rng := g, played := [], explorationCount := 0 } (by norm_num)
    (initial_runInv g)
  obtain ⟨s, hs, hinv⟩ := h
  exact ⟨s, hs, by simpa using hinv⟩

theorem runUCBFinal_eq (M : MathFns) (g : Rng) (s0 : Sim) (hw : ucbWarmStart g = .ok s0) :
    runUCBFinal M g = forLoop (ucbStep M) 28 2 s0 := by
  unfold runUCBFinal
  rw [hw]
  rfl

theorem forLoop_succ_last {σ : Type} (body : ℤ → σ → Except Panic σ) :
    ∀ (n : ℕ) (i : ℤ) (s : σ),
      forLoop body (n + 1) i s
        = match forLoop body n i s with
          | .error p => .error p
          | .ok s1 => body (i + n) s1 := by
  intro n
  induction n with
  | zero =>
    intro i s
    simp only [forLoop, Nat.cast_zero, add_zero]
    cases body i s <;> rfl
  | succ n ih =>
    intro i s
    rw [forLoop]
    cases hb : body i s with
    | error p => simp only [forLoop, hb]
    | ok s1 =>
      simp only
      rw [ih (i + 1) s1]
      conv_rhs => rw [forLoop]
      simp only [hb]
      have e : i + 1 + (n : ℤ) = i + ((n + 1 : ℕ) : ℤ) := by push_cast; ring
      rw [e]

theorem scoring_rounds (M : MathFns) (g : Rng) :
    ∃ s0, ucbWarmStart g = .ok s0 ∧ runUCBFinal M g = forLoop (ucbStep M) 28 2 s0 ∧
      ∀ k : ℕ, (2 : ℤ) + k < 2 ^ 63 → ∃ s, forLoop (ucbStep M) k 2 s0 = .ok s ∧
        forLoop (ucbStep M) (k + 1) 2 s0 = ucbStep M (2 + k) s ∧ ScoreInv (2 + k) s := by
  obtain ⟨_, s0, _, _, hw, hinv⟩ := warmStart_scoreInv g
  refine ⟨s0, hw, runUCBFinal_eq M g s0 hw, ?_⟩
  intro k hk
  obtain ⟨s, hs, hk⟩ := forLoop_total_upto (ucbStep M) ScoreInv (2 ^ 63 - 1)
    (ucbStep_scoreInv M) k 2 s0 (by omega) hinv
  refine ⟨s, hs, ?_, hk⟩
  rw [forLoop_succ_last, hs]

theorem runUCBFinal_total (M : MathFns) (g : Rng) :
    ∃ s0 s, ucbWarmStart g = .ok s0 ∧ RunInv 2 s0 ∧ runUCBFinal M g = .ok s ∧ RunInv 30 s := by
  obtain ⟨s0, hw, hrun, hk⟩ := scoring_rounds M g
  obtain ⟨s2, hs2, _, hinv2⟩ := hk 0 (by norm_num)
  obtain ⟨s, hs, _, hinv⟩ := hk 28 (by norm_num)
  simp only [forLoop] at hs2
  injection hs2 with hs2
  subst hs2
  refine ⟨s0, s, hw, by simpa using hinv2.1, ?_, by simpa using hinv.1⟩
  rw [hrun]
  exact hs

theorem index_mem {α : Type} (xs : List α) (i : ℤ) (a : α) (h : index xs i = .ok a) : a ∈ xs := by
  unfold index at h
  split_ifs at h
  cases hx : xs[i.toNat]? with
  | none => rw [hx] at h; cases h
  | some b =>
    rw [hx] at h
    injection h with h
    subst h
    exact List.getElem?_mem hx

theorem index_lt_length {α : Type} (xs : List α) (i : ℤ) (a : α) (h : index xs i = .ok a) :
    0 ≤ i ∧ i < xs.length := by
  unfold index at h
  split_ifs at h with hi
  cases hx : xs[i.toNat]? with
  | none => rw [hx] at h; cases h
  | some b =>
    have hlt : i.toNat < xs.length := by
      by_contra hge
      rw [List.getElem?_eq_none (not_lt.mp hge)] at hx
      cases hx
    omega

theorem countInv_mono {i j : ℤ} {a : Arm} (hij : i ≤ j) (h : CountInv i a) : CountInv j a :=
  ⟨h.1, h.2.1, le_trans h.2.2 hij⟩

theorem Play_countInv (i : ℤ) (a a1 : Arm) (g g1 : Rng) (hi : i < 2 ^ 63 - 1)
    (hinv : CountInv i a) (h : a.Play g = .ok (a1, g1)) : CountInv (i + 1) a1 := by
  obtain ⟨⟨hs, hr⟩, hs0, hti⟩ := hinv
  have eT : wrap64 (a.Trials + 1) = a.Trials + 1 := wrap64_succ (by omega) (by omega)
  have eS : wrap64 (a.Successes + 1) = a.Successes + 1 := wrap64_succ (by omega) (by omega)
  rcases Play_ok_cases a a1 g g1 h with ⟨_, rfl, _⟩ | ⟨_, hn, rfl, _⟩
  · refine ⟨⟨?_, hr⟩, hs0, ?_⟩
    · show a.Successes ≤ wrap64 (a.Trials + 1)
      rw [eT]; omega
    · show wrap64 (a.Trials + 1) ≤ i + 1
      rw [eT]; omega
  · refine ⟨⟨?_, ?_⟩, ?_, ?_⟩
    · show wrap64 (a.Successes + 1) ≤ wrap64 (a.Trials + 1)
      rw [eT, eS]; omega
    · show 0 ≤ fadd a.TotalReward _
      unfold fadd
      apply round64_nonneg
      have := ofInt_nonneg (Int.emod_nonneg ((g.next.tape g.next.pos).k : ℤ)
        (by omega : toInt a.RewardValue ≠ 0))
      linarith
    · show 0 ≤ wrap64 (a.Successes + 1)
      rw [eS]; omega
    · show wrap64 (a.Trials + 1) ≤ i + 1
      rw [eT]; omega

theorem playArm_countInv (i : ℤ) (s s1 : Sim) (c : ℤ) (hi : i < 2 ^ 63 - 1)
    (hinv : ∀ a ∈ s.arms, CountInv i a) (h : playArm s c = .ok s1) :
    ∀ a ∈ s1.arms, CountInv (i + 1) a := by
  unfold playArm at h
  cases hx : index s.arms c with
  | error p => rw [hx] at h; cases h
  | ok a =>
    rw [hx] at h
    simp only at h
    cases hp : a.Play s.rng with
    | error p => rw [hp] at h; cases h
    | ok r =>
      obtain ⟨a1, g1⟩ := r
      rw [hp] at h
      simp only at h
      injection h with h
      subst h
      intro x hx1
      rcases List.mem_or_eq_of_mem_set hx1 with hmem | heq
      · exact countInv_mono (by omega) (hinv x hmem)
      · rw [heq]
        exact Play_countInv i a a1 s.rng g1 hi (hinv a (index_mem _ _ _ hx)) hp

theorem egStep_countInv (i : ℤ) (s s1 : EGSim) (hi : i < 2 ^ 63 - 1)
    (hinv : ∀ a ∈ s.arms, CountInv i a) (h : egStep i s = .ok s1) :
    ∀ a ∈ s1.arms, CountInv (i + 1) a := by
  unfold egStep at h
  cases hc : chooseArm s.arms epsilon s.rng with
  | error p => rw [hc] at h; cases h
  | ok r =>
    obtain ⟨⟨c, b⟩, g1⟩ := r
    rw [hc] at h
    simp only at h
    cases hp : playArm { s.toSim with rng := g1 } c with
    | error p => rw [hp] at h; cases h
    | ok s2 =>
      rw [hp] at h
      simp only at h
      injection h with h
      subst h
      exact playArm_countInv i { s.toSim with rng := g1 } s2 c hi hinv hp

theorem ucbStep_countInv (M : MathFns) (t : ℤ) (s s1 : Sim) (ht : t < 2 ^ 63 - 1)
    (hinv : ∀ a ∈ s.arms, CountInv t a) (h : ucbStep M t s = .ok s1) :
    ∀ a ∈ s1.arms, CountInv (t + 1) a := by
  unfold ucbStep at h
  cases hc : ucbChoice (ucbValues M t s.arms) with
  | error p => rw [hc] at h; cases h
  | ok c =>
    rw [hc] at h
    exact playArm_countInv t s s1 c ht hinv h

theorem initialArms_countInv : ∀ a ∈ initialArms, CountInv 0 a := by
  intro a ha
  simp only [initialArms, List.mem_cons, List.mem_singleton, List.not_mem_nil, or_false] at ha
  rcases ha with rfl | rfl <;> exact ⟨⟨le_rfl, le_rfl⟩, le_rfl, le_rfl⟩

/-! ## further lemmas: frames, reward bounds, rounding error -/

theorem round64_pos {q : ℚ} (hq : 0 < q) : 0 < round64 q :=
  lt_of_lt_of_le (by positivity) (round64_pos_bounds hq).1

theorem round64_eq_zero_iff (q : ℚ) : round64 q = 0 ↔ q = 0 := by
  constructor
  · intro h
    by_contra hq
    rcases lt_or_gt_of_ne hq with hneg | hpos
    · have := round64_pos (neg_pos.mpr hneg)
      rw [round64_neg, h] at this
      simp at this
    · have := round64_pos hpos
      rw [h] at this
      exact lt_irrefl _ this
  · intro h
    rw [h, round64_zero]

theorem ofInt_ne_zero {n : ℤ} (hn : n ≠ 0) : ofInt n ≠ 0 := by
  unfold ofInt
  rw [Ne, round64_eq_zero_iff]
  exact_mod_cast hn

theorem index_set_ne {α : Type} (xs : List α) (c j : ℤ) (a b : α) (hc : index xs c = .ok a)
    (hj : j ≠ c) : index (xs.set c.toNat b) j = index xs j := by
  have hc0 : 0 ≤ c := by
    by_contra hneg
    unfold index at hc
    rw [if_pos (lt_of_not_ge hneg)] at hc
    cases hc
  unfold index
  by_cases hj0 : j < 0
  · rw [if_pos hj0, if_pos hj0]
  · rw [if_neg hj0, if_neg hj0]
    have hne : c.toNat ≠ j.toNat := by omega
    rw [List.getElem?_set_ne hne]

theorem playArm_frame (s s1 : Sim) (c : ℤ) (h : playArm s c = .ok s1) :
    s1.played = s.played ++ [c] ∧ s1.arms.length = s.arms.length ∧
      ∀ j : ℤ, j ≠ c → index s1.arms j = index s.arms j := by
  unfold playArm at h
  cases hi : index s.arms c with
  | error p => rw [hi] at h; cases h
  | ok a =>
    rw [hi] at h
    simp only at h
    cases hp : a.Play s.rng with
    | error p => rw [hp] at h; cases h
    | ok r =>
      obtain ⟨a1, g1⟩ := r
      rw [hp] at h
      simp only at h
      injection h with h
      subst h
      refine ⟨rfl, by simp, ?_⟩
      intro j hj
      exact index_set_ne s.arms c j a a1 hi hj

theorem warmLoop_countInv (g : Rng) (n : ℕ) (s : Sim)
    (h : forLoop (fun i s => playArm s i) n 0 { arms := initialArms, rng := g, played := [] }
      = .ok s) :
    (n : ℤ) ≤ 2 ∧ ∀ a ∈ s.arms, CountInv n a := by
  have key := forLoop_preserves_idx (fun i s => playArm s i)
    (fun i s => i ≤ 2 ∧ s.arms.length = 2 ∧ ∀ a ∈ s.arms, CountInv i a)
    (by
      intro i s s1 ⟨_, hlen, hinv⟩ hb
      have hb' : playArm s i = .ok s1 := hb
      have hi2 : i < 2 := by
        unfold playArm at hb'
        cases hx : index s.arms i with
        | error p => rw [hx] at hb'; cases hb'
        | ok a =>
          have := (index_lt_length _ _ _ hx).2
          rw [hlen] at this
          exact_mod_cast this
      refine ⟨by omega, ?_, playArm_countInv i s s1 i (by omega) hinv hb'⟩
      rw [(playArm_frame s s1 i hb').2.1, hlen])
    n 0 { arms := initialArms, rng := g, played := [] } s
    ⟨by norm_num, rfl, initialArms_countInv⟩ h
  simp only [zero_add] at key
  exact ⟨key.1, key.2.2⟩

theorem warmStart_countInv (g : Rng) (s0 : Sim) (hw : ucbWarmStart g = .ok s0) :
    ∀ a ∈ s0.arms, CountInv 2 a := by
  have e : (((initialArms.length : ℕ) : ℤ) - 0).toNat = 2 := by decide
  unfold ucbWarmStart forRange at hw
  rw [e] at hw
  exact (warmLoop_countInv g 2 s0 hw).2

theorem two_le_ofInt {t : ℤ} (ht : 2 ≤ t) : 2 ≤ ofInt t := by
  unfold ofInt
  have h2 : round64 ((2 : ℤ) : ℚ) = ((2 : ℤ) : ℚ) := round64_intCast (by norm_num)
  have := round64_mono (show (((2 : ℤ) : ℚ)) ≤ (t : ℚ) by exact_mod_cast ht)
  rw [h2] at this
  exact_mod_cast this

theorem round64_le_int {q : ℚ} {k : ℤ} (hk : |k| ≤ 2 ^ 53) (h : q ≤ k) : round64 q ≤ k :=
  (round64_mono h).trans_eq (round64_intCast hk)

theorem fadd_int_exact (z r : ℤ) (h : |z + r| ≤ 2 ^ 53) (hr : |r| ≤ 2 ^ 53) :
    fadd (z : ℚ) (ofInt r) = ((z + r : ℤ) : ℚ) := by
  unfold fadd
  rw [ofInt_exact hr, ← Int.cast_add]
  exact round64_intCast h

theorem Play_reward_step (a : Arm) (g : Rng) (m z : ℤ) (hm : 1 ≤ m) (hm' : m ≤ 2 ^ 20)
    (hrv : a.RewardValue = m) (hz : a.TotalReward = z) (hz0 : 0 ≤ z)
    (hzb : z ≤ (m - 1) * a.Trials) (ht0 : 0 ≤ a.Trials) (htb : a.Trials ≤ 2 ^ 30) :
    ∃ (a1 : Arm) (g1 : Rng) (z1 : ℤ), a.Play g = .ok (a1, g1) ∧
      a1.RewardValue = m ∧ a1.Trials = a.Trials + 1 ∧ a1.TotalReward = z1 ∧
      0 ≤ z1 ∧ z1 ≤ (m - 1) * a1.Trials := by
  have hti : toInt a.RewardValue = m := by
    rw [hrv]
    exact toInt_intCast (by omega) (by omega)
  have eT : wrap64 (a.Trials + 1) = a.Trials + 1 := wrap64_succ (by omega) (by omega)
  by_cases hd : g.Float64.1 < a.SuccessProb
  · have hn : 0 < toInt a.RewardValue := by rw [hti]; omega
    refine ⟨_, _, z + ((g.next.tape g.next.pos).k : ℤ) % m, Play_hit a g hd hn, hrv, eT, ?_, ?_, ?_⟩
    · have h0 : 0 ≤ ((g.next.tape g.next.pos).k : ℤ) % m := Int.emod_nonneg _ (by omega)
      have h1 : ((g.next.tape g.next.pos).k : ℤ) % m < m := Int.emod_lt_of_pos _ (by omega)
      have hprod : (m - 1) * a.Trials ≤ 2 ^ 20 * 2 ^ 30 := by
        apply mul_le_mul (by omega) htb ht0 (by norm_num)
      show fadd a.TotalReward (ofInt (((g.next.tape g.next.pos).k : ℤ) % toInt a.RewardValue)) = _
      rw [hti, hz]
      apply fadd_int_exact
      · rw [abs_of_nonneg (by omega)]
        have : (2 : ℤ) ^ 20 * 2 ^ 30 + 2 ^ 20 ≤ 2 ^ 53 := by norm_num
        omega
      · rw [abs_of_nonneg h0]
        have : (2 : ℤ) ^ 20 ≤ 2 ^ 53 := by norm_num
        omega
    · have h0 : 0 ≤ ((g.next.tape g.next.pos).k : ℤ) % m := Int.emod_nonneg _ (by omega)
      omega
    · have h1 : ((g.next.tape g.next.pos).k : ℤ) % m < m := Int.emod_lt_of_pos _ (by omega)
      show z + ((g.next.tape g.next.pos).k : ℤ) % m ≤ (m - 1) * wrap64 (a.Trials + 1)
      rw [eT]
      have : (m - 1) * (a.Trials + 1) = (m - 1) * a.Trials + (m - 1) := by ring
      omega
  · refine ⟨_, _, z, Play_miss a g hd, hrv, eT, hz, hz0, ?_⟩
    show z ≤ (m - 1) * wrap64 (a.Trials + 1)
    rw [eT]
    have : (m - 1) * (a.Trials + 1) = (m - 1) * a.Trials + (m - 1) := by ring
    omega

theorem playArm_rewardInv (n : ℤ) (s : Sim) (choice : ℤ) (hn : n < 2 ^ 30)
    (hinv : RewardInv n s) (hc : choice = 0 ∨ choice = 1) :
    ∃ s1, playArm s choice = .ok s1 ∧ RewardInv (n + 1) s1 := by
  obtain ⟨a0, a1, z0, z1, harms, h0, h1, hz0, hz1, hz0n, hz0b, hz1n, hz1b, ht0, ht1, hsum⟩ := hinv
  obtain ⟨arms, g, log⟩ := s
  simp only at harms
  subst harms
  rcases hc with rfl | rfl
  · obtain ⟨b, g1, y, hp, hrv, ht, hy, hy0, hyb⟩ := Play_reward_step a0 g 20 z0 (by norm_num)
      (by norm_num) (by rw [h0]; norm_num) hz0 hz0n (by omega) ht0 (by omega)
    refine ⟨⟨[b, a1], g1, log ++ [0]⟩, ?_, b, a1, y, z1, rfl, by rw [hrv]; norm_num, h1, hy, hz1,
      hy0, by omega, hz1n, hz1b, by omega, ht1, by omega⟩
    rw [playArm_zero, hp]; rfl
  · obtain ⟨b, g1, y, hp, hrv, ht, hy, hy0, hyb⟩ := Play_reward_step a1 g 2 z1 (by norm_num)
      (by norm_num) (by rw [h1]; norm_num) hz1 hz1n (by omega) ht1 (by omega)
    refine ⟨⟨[a0, b], g1, log ++ [1]⟩, ?_, a0, b, z0, y, rfl, h0, by rw [hrv]; norm_num, hz0, hy,
      hz0n, hz0b, hy0, by omega, ht0, by omega, by omega⟩
    rw [playArm_one, hp]; rfl

theorem initial_rewardInv (g : Rng) : RewardInv 0 ⟨initialArms, g, []⟩ := by
  refine ⟨_, _, 0, 0, rfl, ?_, ?_, ?_, ?_, le_rfl, ?_, le_rfl, ?_, ?_, ?_, ?_⟩
  · show round64 20 = 20
    decide!
  · show round64 2 = 2
    decide!
  · show (0 : ℚ) = ((0 : ℤ) : ℚ)
    norm_num
  · show (0 : ℚ) = ((0 : ℤ) : ℚ)
    norm_num
  · show (0 : ℤ) ≤ 19 * 0
    norm_num
  · show (0 : ℤ) ≤ 0
    norm_num
  · show (0 : ℤ) ≤ 0
    norm_num
  · show (0 : ℤ) ≤ 0
    norm_num
  · show (0 : ℤ) + 0 = 0
    norm_num

theorem egStep_rewardInv (i : ℤ) (s : EGSim) (hi : i < 2 ^ 30) (h : RewardInv i s.toSim) :
    ∃ s1, egStep i s = .ok s1 ∧ RewardInv (i + 1) s1.toSim := by
  obtain ⟨⟨arms, g, log⟩, cnt⟩ := s
  have h' := h
  obtain ⟨a0, a1, z0, z1, harms, _⟩ := h'
  simp only at harms
  subst harms
  obtain ⟨c, b, g1, hc, hc01⟩ := chooseArm_total a0 a1 [] epsilon g
  have hinv : RewardInv i ⟨[a0, a1], g1, log⟩ := h
  obtain ⟨s1, hp, hq⟩ := playArm_rewardInv i _ c hi hinv hc01
  refine ⟨{ toSim := s1, explorationCount := if b then wrap64 (cnt + 1) else cnt }, ?_, hq⟩
  simp only [egStep, hc, hp]

theorem ucbStep_rewardInv (M : MathFns) (t : ℤ) (s : Sim) (ht : t < 2 ^ 30)
    (h : RewardInv t s) : ∃ s1, ucbStep M t s = .ok s1 ∧ RewardInv (t + 1) s1 := by
  have h' := h
  obtain ⟨a0, a1, z0, z1, harms, _⟩ := h'
  have hc : ucbChoice (ucbValues M t s.arms)
      = .ok (if ucbScore M t a0 > ucbScore M t a1 then 0 else 1) := by
    rw [harms]; exact ucbChoice_total M t a0 a1
  have hc01 : (if ucbScore M t a0 > ucbScore M t a1 then (0 : ℤ) else 1) = 0 ∨
      (if ucbScore M t a0 > ucbScore M t a1 then (0 : ℤ) else 1) = 1 := by
    split_ifs
    · exact Or.inl rfl
    · exact Or.inr rfl
  obtain ⟨s1, hp, hq⟩ := playArm_rewardInv t s _ ht h hc01
  refine ⟨s1, ?_, hq⟩
  unfold ucbStep
  rw [hc]
  exact hp

theorem runEGFinal_rewardInv (g : Rng) : ∃ s, runEGFinal g = .ok s ∧ RewardInv 30 s.toSim := by
  have h := forLoop_total_upto egStep (fun i s => RewardInv i s.toSim) (2 ^ 30)
    egStep_rewardInv 30 0
    { arms := initialArms, rng := g, played := [], explorationCount := 0 } (by norm_num)
    (initial_rewardInv g)
  obtain ⟨s, hs, hinv⟩ := h
  exact ⟨s, hs, by simpa using hinv⟩

theorem runUCBFinal_rewardInv (M : MathFns) (g : Rng) :
    ∃ s, runUCBFinal M g = .ok s ∧ RewardInv 30 s := by
  obtain ⟨s1, hp1, hq1⟩ := playArm_rewardInv 0 _ 0 (by norm_num) (initial_rewardInv g)
    (Or.inl rfl)
  obtain ⟨s2, hp2, hq2⟩ := playArm_rewardInv 1 s1 1 (by norm_num) hq1 (Or.inr rfl)
  obtain ⟨s1', s2', hp1', hp2', hw, _⟩ := warmStart_scoreInv g
  rw [hp1] at hp1'
  injection hp1' with e1
  subst e1
  rw [hp2] at hp2'
  injection hp2' with e2
  subst e2
  have h := forLoop_total_upto (ucbStep M) RewardInv (2 ^ 30) (ucbStep_rewardInv M) 28 2 s2
    (by norm_num) hq2
  obtain ⟨s, hs, hinv⟩ := h
  refine ⟨s, ?_, by simpa using hinv⟩
  rw [runUCBFinal_eq M g s2 hw]
  exact hs

theorem term_bound (a : Arm) (z m : ℤ) (hz : a.TotalReward = z) (hz0 : 0 ≤ z)
    (hzb : z ≤ m * a.Trials) (ht0 : 0 ≤ a.Trials) (htb : a.Trials ≤ 2 ^ 30)
    (hm0 : 0 ≤ m) (hmb : m ≤ 2 ^ 20) :
    0 ≤ fmul a.AvgReward (ofInt a.Trials) ∧
      fmul a.AvgReward (ofInt a.Trials) ≤ ((m * a.Trials : ℤ) : ℚ) := by
  have htabs : |a.Trials| ≤ 2 ^ 53 := by
    rw [abs_of_nonneg ht0]
    have : (2 : ℤ) ^ 30 ≤ 2 ^ 53 := by norm_num
    omega
  have hprod : m * a.Trials ≤ 2 ^ 20 * 2 ^ 30 := mul_le_mul hmb htb ht0 (by norm_num)
  have hpabs : |m * a.Trials| ≤ 2 ^ 53 := by
    rw [abs_of_nonneg (mul_nonneg hm0 ht0)]
    have : (2 : ℤ) ^ 20 * 2 ^ 30 ≤ 2 ^ 53 := by norm_num
    omega
  have hmabs : |m| ≤ 2 ^ 53 := by
    rw [abs_of_nonneg hm0]
    have : (2 : ℤ) ^ 20 ≤ 2 ^ 53 := by norm_num
    omega
  rw [ofInt_exact htabs]
  by_cases ht : a.Trials = 0
  · have : a.AvgReward = 0 := by simp [Arm.AvgReward, ht]
    rw [this, ht]
    simp [fmul, round64_zero]
  · have htpos : (0 : ℚ) < (a.Trials : ℚ) := by
      have : 0 < a.Trials := lt_of_le_of_ne ht0 (Ne.symm ht)
      exact_mod_cast this
    have havg : a.AvgReward = round64 ((z : ℚ) / (a.Trials : ℚ)) := by
      simp only [Arm.AvgReward, if_neg ht, fdiv, ofInt_exact htabs, hz]
    have hq0 : (0 : ℚ) ≤ (z : ℚ) / (a.Trials : ℚ) :=
      div_nonneg (by exact_mod_cast hz0) htpos.le
    have hqm : (z : ℚ) / (a.Trials : ℚ) ≤ ((m : ℤ) : ℚ) := by
      rw [div_le_iff₀ htpos]
      exact_mod_cast hzb
    have ha0 : 0 ≤ a.AvgReward := by rw [havg]; exact round64_nonneg hq0
    have ham : a.AvgReward ≤ ((m : ℤ) : ℚ) := by rw [havg]; exact round64_le_int hmabs hqm
    constructor
    · exact round64_nonneg (mul_nonneg ha0 htpos.le)
    · apply round64_le_int hpabs
      push_cast
      exact mul_le_mul_of_nonneg_right ham htpos.le

theorem egTotal_bound (s : Sim) (h : RewardInv 30 s) :
    0 ≤ egTotal s.arms ∧ egTotal s.arms ≤ 570 := by
  obtain ⟨a0, a1, z0, z1, harms, _, _, hz0, hz1, hz0n, hz0b, hz1n, hz1b, ht0, ht1, hsum⟩ := h
  obtain ⟨hx0, hx1⟩ := term_bound a0 z0 19 hz0 hz0n hz0b ht0 (by omega) (by norm_num)
    (by norm_num)
  obtain ⟨hy0, hy1⟩ := term_bound a1 z1 1 hz1 hz1n (by omega) ht1 (by omega) (by norm_num)
    (by norm_num)
  rw [harms]
  simp only [egTotal, List.foldl_cons, List.foldl_nil]
  have hA0 : 0 ≤ fadd 0 (fmul a0.AvgReward (ofInt a0.Trials)) := by
    unfold fadd
    exact round64_nonneg (by linarith)
  have hA1 : fadd 0 (fmul a0.AvgReward (ofInt a0.Trials)) ≤ ((19 * a0.Trials : ℤ) : ℚ) := by
    unfold fadd
    apply round64_le_int
    · rw [abs_of_nonneg (by omega)]
      have : (2 : ℤ) ^ 10 ≤ 2 ^ 53 := by norm_num
      omega
    · linarith
  constructor
  · exact round64_nonneg (add_nonneg hA0 hy0)
  · have hB : fadd (fadd 0 (fmul a0.AvgReward (ofInt a0.Trials)))
        (fmul a1.AvgReward (ofInt a1.Trials)) ≤ ((19 * a0.Trials + 1 * a1.Trials : ℤ) : ℚ) := by
      unfold fadd
      apply round64_le_int
      · rw [abs_of_nonneg (by omega)]
        have : (2 : ℤ) ^ 10 ≤ 2 ^ 53 := by norm_num
        omega
      · push_cast
        push_cast at hA1 hy1
        unfold fadd at hA1
        linarith
    have hC : ((19 * a0.Trials + 1 * a1.Trials : ℤ) : ℚ) ≤ 570 := by
      have : 19 * a0.Trials + 1 * a1.Trials ≤ 570 := by omega
      exact_mod_cast this
    exact le_trans hB hC

theorem ucbTotal_bound (s : Sim) (h : RewardInv 30 s) :
    ∃ v, ucbTotal s.arms = .ok v ∧ 0 ≤ v ∧ v ≤ 570 := by
  obtain ⟨a0, a1, z0, z1, harms, _, _, hz0, hz1, hz0n, hz0b, hz1n, hz1b, ht0, ht1, hsum⟩ := h
  refine ⟨fadd a0.TotalReward a1.TotalReward, ?_, ?_, ?_⟩
  · rw [harms]
    simp [ucbTotal, index]
  · unfold fadd
    apply round64_nonneg
    rw [hz0, hz1]
    exact_mod_cast (by omega : 0 ≤ z0 + z1)
  · unfold fadd
    have hB : round64 (a0.TotalReward + a1.TotalReward) ≤ ((z0 + z1 : ℤ) : ℚ) := by
      apply round64_le_int
      · rw [abs_of_nonneg (by omega)]
        have : (2 : ℤ) ^ 10 ≤ 2 ^ 53 := by norm_num
        omega
      · rw [hz0, hz1]; push_cast; exact le_rfl
    have hC : ((z0 + z1 : ℤ) : ℚ) ≤ 570 := by
      have : z0 + z1 ≤ 570 := by omega
      exact_mod_cast this
    exact le_trans hB hC

theorem runEGSimulation_bound (g : Rng) :
    ∃ v, runEGSimulation g = .ok v ∧ 0 ≤ v ∧ v ≤ 570 := by
  obtain ⟨s, hs, hinv⟩ := runEGFinal_rewardInv g
  refine ⟨egTotal s.arms, ?_, egTotal_bound s.toSim hinv⟩
  unfold runEGSimulation
  rw [hs]

theorem runUCBSimulation_bound (M : MathFns) (g : Rng) :
    ∃ v, runUCBSimulation M g = .ok v ∧ 0 ≤ v ∧ v ≤ 570 := by
  obtain ⟨s, hs, hinv⟩ := runUCBFinal_rewardInv M g
  obtain ⟨v, hv, hb⟩ := ucbTotal_bound s hinv
  refine ⟨v, ?_, hb⟩
  unfold runUCBSimulation
  rw [hs]
  exact hv

theorem averageRuns_bound (run : Rng → Except Panic ℚ) (seeds : ℤ → Rng) (n : ℤ)
    (hn1 : 1 ≤ n) (hn2 : n ≤ 2 ^ 40)
    (hrun : ∀ g, ∃ v, run g = .ok v ∧ 0 ≤ v ∧ v ≤ 570) :
    ∃ avg, averageRuns run seeds n = .ok avg ∧ 0 ≤ avg ∧ avg ≤ 570 := by
  have hloop := forLoop_total_upto (addRun run seeds)
    (fun i total => 0 ≤ i ∧ 0 ≤ total ∧ total ≤ ((570 * i : ℤ) : ℚ)) (2 ^ 40)
    (by
      intro i total hi ⟨hi0, ht0, htb⟩
      obtain ⟨v, hv, hv0, hvb⟩ := hrun (seeds i)
      refine ⟨fadd total v, by simp only [addRun, hv], by omega, ?_, ?_⟩
      · unfold fadd
        exact round64_nonneg (by linarith)
      · unfold fadd
        apply round64_le_int
        · rw [abs_of_nonneg (by omega)]
          have : (570 : ℤ) * 2 ^ 40 ≤ 2 ^ 53 := by norm_num
          omega
        · push_cast
          push_cast at htb
          linarith)
    (n - 0).toNat 0 0 (by omega) ⟨le_rfl, le_rfl, by norm_num⟩
  obtain ⟨total, hl, _, ht0, htb⟩ := hloop
  have hcast : (0 : ℤ) + ((n - 0).toNat : ℤ) = n := by omega
  rw [hcast] at htb
  have hnabs : |n| ≤ 2 ^ 53 := by
    rw [abs_of_nonneg (by omega)]
    have : (2 : ℤ) ^ 40 ≤ 2 ^ 53 := by norm_num
    omega
  have hnpos : (0 : ℚ) < (n : ℚ) := by exact_mod_cast (by omega : 0 < n)
  refine ⟨fdiv total (ofInt n), ?_, ?_, ?_⟩
  · unfold averageRuns forRange
    rw [hl]
  · unfold fdiv
    rw [ofInt_exact hnabs]
    exact round64_nonneg (div_nonneg ht0 hnpos.le)
  · unfold fdiv
    rw [ofInt_exact hnabs]
    have h570 : |(570 : ℤ)| ≤ 2 ^ 53 := by norm_num
    have := round64_le_int (q := total / (n : ℚ)) h570 (by
      rw [div_le_iff₀ hnpos]
      push_cast at htb ⊢
      linarith)
    exact_mod_cast this

theorem mean_le (vs : List ℚ) (hne : vs ≠ []) (h : ∀ v ∈ vs, v ≤ 570) :
    vs.sum / (vs.length : ℚ) ≤ 570 := by
  have hlen : (0 : ℚ) < (vs.length : ℚ) := by
    have : 0 < vs.length := List.length_pos.mpr hne
    exact_mod_cast this
  rw [div_le_iff₀ hlen]
  have := List.sum_le_card_nsmul vs 570 h
  rw [nsmul_eq_mul] at this
  linarith

theorem roundHalfEven_abs_sub_le (q : ℚ) : |(roundHalfEven q : ℚ) - q| ≤ 1 / 2 := by
  have h1 : (⌊q⌋ : ℚ) ≤ q := Int.floor_le q
  have h2 : q < (⌊q⌋ : ℚ) + 1 := Int.lt_floor_add_one q
  unfold roundHalfEven
  simp only
  rw [abs_le]
  split_ifs with ha hb hc
  · constructor <;> linarith
  · push_cast; constructor <;> linarith
  · constructor <;> linarith
  · push_cast; constructor <;> linarith

theorem round64_rel_err {q : ℚ} (hq : 0 < q) :
    q * (1 - 1 / 2 ^ 53) ≤ round64 q ∧ round64 q ≤ q * (1 + 1 / 2 ^ 53) := by
  obtain ⟨hlo, _⟩ := scaled_bounds hq
  have he : (0 : ℚ) < 2 ^ (ilog2 q - 52) := by positivity
  have herr := roundHalfEven_abs_sub_le (q / 2 ^ (ilog2 q - 52))
  rw [abs_le] at herr
  obtain ⟨herr1, herr2⟩ := herr
  have hr : round64 q = (roundHalfEven (q / 2 ^ (ilog2 q - 52)) : ℚ) * 2 ^ (ilog2 q - 52) := by
    unfold round64
    rw [if_neg hq.ne']
  have hq' : q = q / 2 ^ (ilog2 q - 52) * 2 ^ (ilog2 q - 52) := by
    field_simp
  set y : ℚ := q / 2 ^ (ilog2 q - 52) with hy
  set E : ℚ := 2 ^ (ilog2 q - 52) with hE
  -- 1/2 ≤ y / 2^53
  have hhalf : (1 : ℚ) / 2 ≤ y * (1 / 2 ^ 53) := by
    have : (2 : ℚ) ^ 52 * (1 / 2 ^ 53) = 1 / 2 := by norm_num
    calc (1 : ℚ) / 2 = (2 : ℚ) ^ 52 * (1 / 2 ^ 53) := this.symm
      _ ≤ y * (1 / 2 ^ 53) := by
        apply mul_le_mul_of_nonneg_right hlo
        positivity
  rw [hr]
  have e1 : q * (1 - 1 / 2 ^ 53) = (y - y * (1 / 2 ^ 53)) * E := by
    conv_lhs => rw [hq']
    ring
  have e2 : q * (1 + 1 / 2 ^ 53) = (y + y * (1 / 2 ^ 53)) * E := by
    conv_lhs => rw [hq']
    ring
  rw [e1, e2]
  constructor
  · apply mul_le_mul_of_nonneg_right _ he.le
    linarith
  · apply mul_le_mul_of_nonneg_right _ he.le
    linarith

theorem round64_lt_of_gap {p q : ℚ} (hp : 0 ≤ p) (hpq : p < q)
    (hgap : p * (1 + 1 / 2 ^ 51) ≤ q) : round64 p < round64 q := by
  have hq : 0 < q := lt_of_le_of_lt hp hpq
  rcases eq_or_lt_of_le hp with h0 | hpos
  · rw [← h0, round64_zero]
    exact round64_pos hq
  · have h1 := (round64_rel_err hpos).2
    have h2 := (round64_rel_err hq).1
    have h3 : p * (1 + 1 / 2 ^ 53) < q * (1 - 1 / 2 ^ 53) := by
      have hb : p * (1 + 1 / 2 ^ 51) * (1 - 1 / 2 ^ 53) ≤ q * (1 - 1 / 2 ^ 53) := by
        apply mul_le_mul_of_nonneg_right hgap
        norm_num
      have hc : p * (1 + 1 / 2 ^ 53) < p * (1 + 1 / 2 ^ 51) * (1 - 1 / 2 ^ 53) := by
        have : (1 : ℚ) + 1 / 2 ^ 53 < (1 + 1 / 2 ^ 51) * (1 - 1 / 2 ^ 53) := by norm_num
        calc p * (1 + 1 / 2 ^ 53) < p * ((1 + 1 / 2 ^ 51) * (1 - 1 / 2 ^ 53)) :=
              mul_lt_mul_of_pos_left this hpos
          _ = p * (1 + 1 / 2 ^ 51) * (1 - 1 / 2 ^ 53) := by ring
      linarith
    linarith

theorem bonus_gap {L N Mq xa xb Sa Sb c : ℚ} (hL : 1 ≤ L) (hN : 1 ≤ N) (hNM : N + 1 ≤ Mq)
    (hNb : N + 1 ≤ 2 ^ 20)
    (hxa_lo : L / N * (1 - 1 / 2 ^ 53) ≤ xa) (hxa_hi : xa ≤ L / N * (1 + 1 / 2 ^ 53))
    (hxb_hi : xb ≤ L / Mq * (1 + 1 / 2 ^ 53))
    (hSa0 : 0 ≤ Sa) (hSb0 : 0 ≤ Sb)
    (hSa_lo : xa * (1 - 1 / 2 ^ 51) ≤ Sa ^ 2) (hSa_hi : Sa ^ 2 ≤ xa * (1 + 1 / 2 ^ 51))
    (hSb_hi : Sb ^ 2 ≤ xb * (1 + 1 / 2 ^ 51))
    (hc0 : 0 ≤ c) (hcb : c ≤ 2 ^ 16) :
    Sb < Sa ∧ (c + Sb) * (1 + 1 / 2 ^ 51) ≤ c + Sa := by
  have hN0 : 0 < N := by linarith
  have hM0 : 0 < Mq := by linarith
  have hA0 : 0 < L / N := div_pos (by linarith) hN0
  have hB0 : 0 < L / Mq := div_pos (by linarith) hM0
  have hAN : L / N * N = L := by field_simp
  have hBM : L / Mq * Mq = L := by field_simp
  generalize hA : L / N = A at *
  generalize hB : L / Mq = B at *
  -- B * (N + 1) ≤ A * N
  have hBA : B * (N + 1) ≤ A * N := by
    have : B * (N + 1) ≤ B * Mq := mul_le_mul_of_nonneg_left hNM hB0.le
    linarith
  have hSa_lo' : A * (1 - 5 / 2 ^ 53) ≤ Sa ^ 2 := by
    have h1 : A * (1 - 1 / 2 ^ 53) * (1 - 1 / 2 ^ 51) ≤ xa * (1 - 1 / 2 ^ 51) :=
      mul_le_mul_of_nonneg_right hxa_lo (by norm_num)
    have h2 : A * (1 - 5 / 2 ^ 53) ≤ A * (1 - 1 / 2 ^ 53) * (1 - 1 / 2 ^ 51) := by
      have : (1 : ℚ) - 5 / 2 ^ 53 ≤ (1 - 1 / 2 ^ 53) * (1 - 1 / 2 ^ 51) := by norm_num
      calc A * (1 - 5 / 2 ^ 53) ≤ A * ((1 - 1 / 2 ^ 53) * (1 - 1 / 2 ^ 51)) :=
            mul_le_mul_of_nonneg_left this hA0.le
        _ = A * (1 - 1 / 2 ^ 53) * (1 - 1 / 2 ^ 51) := by ring
    linarith
  have hSa_hi' : Sa ^ 2 ≤ A * (1 + 6 / 2 ^ 53) := by
    have h1 : xa * (1 + 1 / 2 ^ 51) ≤ A * (1 + 1 / 2 ^ 53) * (1 + 1 / 2 ^ 51) :=
      mul_le_mul_of_nonneg_right hxa_hi (by norm_num)
    have h2 : A * (1 + 1 / 2 ^ 53) * (1 + 1 / 2 ^ 51) ≤ A * (1 + 6 / 2 ^ 53) := by
      have : (1 + 1 / 2 ^ 53) * (1 + 1 / 2 ^ 51) ≤ (1 : ℚ) + 6 / 2 ^ 53 := by norm_num
      calc A * (1 + 1 / 2 ^ 53) * (1 + 1 / 2 ^ 51)
            = A * ((1 + 1 / 2 ^ 53) * (1 + 1 / 2 ^ 51)) := by ring
        _ ≤ A * (1 + 6 / 2 ^ 53) := mul_le_mul_of_nonneg_left this hA0.le
    linarith
  have hSb_hi' : Sb ^ 2 ≤ B * (1 + 6 / 2 ^ 53) := by
    have h1 : xb * (1 + 1 / 2 ^ 51) ≤ B * (1 + 1 / 2 ^ 53) * (1 + 1 / 2 ^ 51) :=
      mul_le_mul_of_nonneg_right hxb_hi (by norm_num)
    have h2 : B * (1 + 1 / 2 ^ 53) * (1 + 1 / 2 ^ 51) ≤ B * (1 + 6 / 2 ^ 53) := by
      have : (1 + 1 / 2 ^ 53) * (1 + 1 / 2 ^ 51) ≤ (1 : ℚ) + 6 / 2 ^ 53 := by norm_num
      calc B * (1 + 1 / 2 ^ 53) * (1 + 1 / 2 ^ 51)
            = B * ((1 + 1 / 2 ^ 53) * (1 + 1 / 2 ^ 51)) := by ring
        _ ≤ B * (1 + 6 / 2 ^ 53) := mul_le_mul_of_nonneg_left this hB0.le
    linarith
  -- the gap between the squares
  have hgap : A / 2 ≤ (N + 1) * Sa ^ 2 - (N + 1) * Sb ^ 2 := by
    have h6a : (N + 1) * (A * (1 - 5 / 2 ^ 53)) ≤ (N + 1) * Sa ^ 2 :=
      mul_le_mul_of_nonneg_left hSa_lo' (by linarith)
    have h6b : (N + 1) * Sb ^ 2 ≤ (N + 1) * (B * (1 + 6 / 2 ^ 53)) :=
      mul_le_mul_of_nonneg_left hSb_hi' (by linarith)
    have h6c : B * (N + 1) * (1 + 6 / 2 ^ 53) ≤ A * N * (1 + 6 / 2 ^ 53) :=
      mul_le_mul_of_nonneg_right hBA (by norm_num)
    have hK : (1 : ℚ) / 2 ≤ (N + 1) * (1 - 5 / 2 ^ 53) - N * (1 + 6 / 2 ^ 53) := by
      have : N * (11 / 2 ^ 53) ≤ 2 ^ 20 * (11 / 2 ^ 53) :=
        mul_le_mul_of_nonneg_right (by linarith) (by norm_num)
      have h20 : (2 : ℚ) ^ 20 * (11 / 2 ^ 53) ≤ 1 / 4 := by norm_num
      linarith
    have h6d : A * (1 / 2) ≤ A * ((N + 1) * (1 - 5 / 2 ^ 53) - N * (1 + 6 / 2 ^ 53)) :=
      mul_le_mul_of_nonneg_left hK hA0.le
    linarith
  have hlt : Sb < Sa := by
    by_contra hcon
    have hle : Sa ≤ Sb := not_lt.mp hcon
    have hsq : Sa ^ 2 ≤ Sb ^ 2 := pow_le_pow_left₀ hSa0 hle 2
    have : (N + 1) * Sa ^ 2 ≤ (N + 1) * Sb ^ 2 := mul_le_mul_of_nonneg_left hsq (by linarith)
    linarith
  refine ⟨hlt, ?_⟩
  -- lower bound on Sa
  have hAlow : 1 / 2 ^ 20 ≤ A := by
    have h1 : A * N ≤ A * 2 ^ 20 := mul_le_mul_of_nonneg_left (by linarith) hA0.le
    have h2 : (1 : ℚ) ≤ A * 2 ^ 20 := by linarith
    have h3 : (1 : ℚ) / 2 ^ 20 * 2 ^ 20 = 1 := by norm_num
    by_contra hcon
    have hlt' : A < 1 / 2 ^ 20 := not_le.mp hcon
    have : A * 2 ^ 20 < 1 / 2 ^ 20 * 2 ^ 20 := mul_lt_mul_of_pos_right hlt' (by norm_num)
    linarith
  have hSa_low : 1 / 2 ^ 11 ≤ Sa := by
    by_contra hcon
    have hlt' : Sa < 1 / 2 ^ 11 := not_le.mp hcon
    have hsq : Sa ^ 2 < (1 / 2 ^ 11) ^ 2 := pow_lt_pow_left₀ hlt' hSa0 (by norm_num)
    have h1 : (1 : ℚ) / 2 ^ 20 * (1 - 5 / 2 ^ 53) ≤ A * (1 - 5 / 2 ^ 53) :=
      mul_le_mul_of_nonneg_right hAlow (by norm_num)
    have h2 : ((1 : ℚ) / 2 ^ 11) ^ 2 ≤ 1 / 2 ^ 20 * (1 - 5 / 2 ^ 53) := by norm_num
    linarith
  have hSapos : 0 < Sa := lt_of_lt_of_le (by norm_num) hSa_low
  -- (N + 1) * (Sa - Sb) ≥ Sa / 8
  have hd : Sa / 8 ≤ (N + 1) * (Sa - Sb) := by
    have h1 : Sa ^ 2 / 4 ≤ A / 2 := by
      have : A * (1 + 6 / 2 ^ 53) ≤ A * 2 := mul_le_mul_of_nonneg_left (by norm_num) hA0.le
      linarith
    have h2 : (N + 1) * (Sa - Sb) * (Sa + Sb) ≤ (N + 1) * (Sa - Sb) * (2 * Sa) := by
      apply mul_le_mul_of_nonneg_left (by linarith)
      exact mul_nonneg (by linarith) (by linarith)
    have h3 : (N + 1) * (Sa - Sb) * (Sa + Sb) = (N + 1) * Sa ^ 2 - (N + 1) * Sb ^ 2 := by ring
    have h4 : Sa * (Sa / 8) ≤ Sa * ((N + 1) * (Sa - Sb)) := by
      have e1 : Sa * (Sa / 8) = Sa ^ 2 / 4 / 2 := by ring
      have e2 : Sa * ((N + 1) * (Sa - Sb)) = (N + 1) * (Sa - Sb) * (2 * Sa) / 2 := by ring
      rw [e1, e2]
      linarith
    exact le_of_mul_le_mul_left h4 hSapos
  have hreq : (N + 1) * (1 / 2 ^ 51 * (c + Sa)) ≤ Sa / 8 := by
    have h1 : (N + 1) * (1 / 2 ^ 51 * (c + Sa)) ≤ 2 ^ 20 * (1 / 2 ^ 51 * (c + Sa)) :=
      mul_le_mul_of_nonneg_right hNb (by positivity)
    linarith
  have hfin : 1 / 2 ^ 51 * (c + Sa) ≤ Sa - Sb := by
    have : (N + 1) * (1 / 2 ^ 51 * (c + Sa)) ≤ (N + 1) * (Sa - Sb) := le_trans hreq hd
    exact le_of_mul_le_mul_left this (by linarith)
  have hSb' : 1 / 2 ^ 51 * (c + Sb) ≤ 1 / 2 ^ 51 * (c + Sa) :=
    mul_le_mul_of_nonneg_left (by linarith) (by norm_num)
  linarith

theorem exact_bonus_lt (t n m : ℝ) (ht : 2 ≤ t) (hn : 1 ≤ n) (hnm : n < m) :
    Real.sqrt (2 * Real.log t / m) < Real.sqrt (2 * Real.log t / n) := by
  have hlog : 0 < Real.log t := Real.log_pos (by linarith)
  have hn0 : 0 < n := by linarith
  have hm0 : 0 < m := by linarith
  apply Real.sqrt_lt_sqrt
  · positivity
  · exact div_lt_div_of_pos_left (by positivity) hn0 hnm

theorem one_le_two_log (M : MathFns) (t : ℤ) (hLog : 1 / 2 ≤ M.Log (ofInt t)) :
    1 ≤ fmul 2 (M.Log (ofInt t)) := by
  unfold fmul
  have h1 : round64 ((1 : ℤ) : ℚ) = ((1 : ℤ) : ℚ) := round64_intCast (by norm_num)
  have := round64_mono (show (((1 : ℤ) : ℚ)) ≤ 2 * M.Log (ofInt t) by push_cast; linarith)
  rw [h1] at this
  exact_mod_cast this

theorem score_lt_of_less_played (M : MathFns) (t : ℤ) (a b : Arm)
    (hLog : 1 / 2 ≤ M.Log (ofInt t))
    (hn : 1 ≤ a.Trials) (hnm : a.Trials < b.Trials) (hmb : b.Trials ≤ 2 ^ 20)
    (havg : a.AvgReward = b.AvgReward) (hc0 : 0 ≤ a.AvgReward) (hcb : a.AvgReward ≤ 2 ^ 16)
    (hSa : SqrtAccurate M (fdiv (fmul 2 (M.Log (ofInt t))) (ofInt a.Trials)))
    (hSb : SqrtAccurate M (fdiv (fmul 2 (M.Log (ofInt t))) (ofInt b.Trials))) :
    M.Sqrt (fdiv (fmul 2 (M.Log (ofInt t))) (ofInt b.Trials))
      < M.Sqrt (fdiv (fmul 2 (M.Log (ofInt t))) (ofInt a.Trials)) ∧
    ucbScore M t b < ucbScore M t a := by
  have hL := one_le_two_log M t hLog
  have habs : |a.Trials| ≤ 2 ^ 53 := by
    rw [abs_of_nonneg (by omega)]
    have : (2 : ℤ) ^ 20 ≤ 2 ^ 53 := by norm_num
    omega
  have hbbs : |b.Trials| ≤ 2 ^ 53 := by
    rw [abs_of_nonneg (by omega)]
    have : (2 : ℤ) ^ 20 ≤ 2 ^ 53 := by norm_num
    omega
  have hN : (1 : ℚ) ≤ (a.Trials : ℚ) := by exact_mod_cast hn
  have hNM : (a.Trials : ℚ) + 1 ≤ (b.Trials : ℚ) := by exact_mod_cast (by omega : a.Trials + 1 ≤ b.Trials)
  have hNb : (a.Trials : ℚ) + 1 ≤ 2 ^ 20 := by
    have : a.Trials + 1 ≤ 2 ^ 20 := by omega
    exact_mod_cast this
  obtain ⟨hSa0, hSa_lo, hSa_hi⟩ := hSa
  obtain ⟨hSb0, _, hSb_hi⟩ := hSb
  rw [ofInt_exact habs] at hSa0 hSa_lo hSa_hi ⊢
  rw [ofInt_exact hbbs] at hSb0 hSb_hi ⊢
  have hpa : 0 < fmul 2 (M.Log (ofInt t)) / (a.Trials : ℚ) := div_pos (by linarith) (by linarith)
  have hpb : 0 < fmul 2 (M.Log (ofInt t)) / (b.Trials : ℚ) := div_pos (by linarith) (by linarith)
  obtain ⟨hxa_lo, hxa_hi⟩ := round64_rel_err hpa
  obtain ⟨_, hxb_hi⟩ := round64_rel_err hpb
  obtain ⟨hlt, hgap⟩ := bonus_gap (c := a.AvgReward) hL hN hNM hNb hxa_lo hxa_hi hxb_hi
    hSa0 hSb0 hSa_lo hSa_hi hSb_hi hc0 hcb
  refine ⟨hlt, ?_⟩
  have hsa : ucbScore M t a
      = round64 (a.AvgReward + M.Sqrt (fdiv (fmul 2 (M.Log (ofInt t))) (a.Trials : ℚ))) := by
    simp only [ucbScore, fadd, ofInt_exact habs]
  have hsb : ucbScore M t b
      = round64 (a.AvgReward + M.Sqrt (fdiv (fmul 2 (M.Log (ofInt t))) (b.Trials : ℚ))) := by
    simp only [ucbScore, fadd, ofInt_exact hbbs, havg]
  rw [hsa, hsb]
  exact round64_lt_of_gap (add_nonneg hc0 hSb0) (by unfold fdiv at hlt ⊢; linarith)
    (by unfold fdiv at hgap ⊢; exact hgap)

/-! ## further lemmas: receiver of a play, integrality, scoring states -/

theorem PlayReceiver_of_ok (a a1 : Arm) (g g1 : Rng) (h : a.Play g = .ok (a1, g1)) :
    a.PlayReceiver g = a1 := by
  rcases Play_ok_cases a a1 g g1 h with ⟨hd, rfl, _⟩ | ⟨hd, hn, rfl, _⟩
  · exact PlayReceiver_miss a g hd
  · exact PlayReceiver_hit a g hd hn

theorem two_zpow_natCast (e : ℤ) (he : 0 ≤ e) : (2 : ℚ) ^ e = (((2 : ℤ) ^ e.toNat : ℤ) : ℚ) := by
  have : e = (e.toNat : ℤ) := (Int.toNat_of_nonneg he).symm
  conv_lhs => rw [this]
  rw [zpow_natCast]
  push_cast
  rfl

theorem ofInt_isInt {n : ℤ} (hn : 0 ≤ n) : ∃ z : ℤ, ofInt n = z ∧ 0 ≤ z := by
  rcases eq_or_lt_of_le hn with h0 | hpos
  · refine ⟨0, ?_, le_rfl⟩
    rw [← h0]
    simp [ofInt, round64_zero]
  · have hq : (0 : ℚ) < (n : ℚ) := by exact_mod_cast hpos
    have hnn : (0 : ℚ) ≤ ofInt n := ofInt_nonneg hn
    by_cases he : 52 ≤ ilog2 (n : ℚ)
    · have hr : ofInt n = (roundHalfEven ((n : ℚ) / 2 ^ (ilog2 (n : ℚ) - 52)) : ℚ)
          * 2 ^ (ilog2 (n : ℚ) - 52) := by
        unfold ofInt round64
        rw [if_neg hq.ne']
      obtain ⟨R, hR⟩ : ∃ R : ℤ, ofInt n = (R : ℚ) * 2 ^ (ilog2 (n : ℚ) - 52) := ⟨_, hr⟩
      rw [two_zpow_natCast _ (by omega)] at hR
      have hz : ofInt n = ((R * 2 ^ (ilog2 (n : ℚ) - 52).toNat : ℤ) : ℚ) := by
        rw [hR]; push_cast; ring
      refine ⟨_, hz, ?_⟩
      rw [hz] at hnn
      exact_mod_cast hnn
    · have hlt := (ilog2_spec (n : ℚ) hq.ne').2
      rw [abs_of_pos hq] at hlt
      have hle : (2 : ℚ) ^ (ilog2 (n : ℚ) + 1) ≤ 2 ^ (52 : ℤ) :=
        zpow_le_zpow_right₀ (by norm_num) (by omega)
      have hb : (n : ℚ) < (((2 : ℤ) ^ 53 : ℤ) : ℚ) := by
        have : (2 : ℚ) ^ (52 : ℤ) ≤ (((2 : ℤ) ^ 53 : ℤ) : ℚ) := by norm_num
        linarith
      have hb' : n < 2 ^ 53 := by exact_mod_cast hb
      refine ⟨n, ofInt_exact ?_, hn⟩
      rw [abs_of_nonneg hn]
      exact hb'.le

theorem ofInt_le_float {r : ℤ} {x : ℚ} (hx : IsF64 x) (h : (r : ℚ) ≤ x) : ofInt r ≤ x := by
  have := round64_mono h
  rw [hx] at this
  exact this

theorem avg_bound (a : Arm) (z m : ℤ) (hz : a.TotalReward = z) (hz0 : 0 ≤ z)
    (hzb : z ≤ m * a.Trials) (ht1 : 1 ≤ a.Trials) (htb : a.Trials ≤ 2 ^ 30)
    (hm0 : 0 ≤ m) (hmb : m ≤ 2 ^ 20) :
    0 ≤ a.AvgReward ∧ a.AvgReward ≤ (m : ℚ) := by
  have htabs : |a.Trials| ≤ 2 ^ 53 := by
    rw [abs_of_nonneg (by omega)]
    have : (2 : ℤ) ^ 30 ≤ 2 ^ 53 := by norm_num
    omega
  have hmabs : |m| ≤ 2 ^ 53 := by
    rw [abs_of_nonneg hm0]
    have : (2 : ℤ) ^ 20 ≤ 2 ^ 53 := by norm_num
    omega
  have ht : a.Trials ≠ 0 := by omega
  have htpos : (0 : ℚ) < (a.Trials : ℚ) := by
    exact_mod_cast (by omega : 0 < a.Trials)
  have havg : a.AvgReward = round64 ((z : ℚ) / (a.Trials : ℚ)) := by
    simp only [Arm.AvgReward, if_neg ht, fdiv, ofInt_exact htabs, hz]
  have hq0 : (0 : ℚ) ≤ (z : ℚ) / (a.Trials : ℚ) :=
    div_nonneg (by exact_mod_cast hz0) htpos.le
  have hqm : (z : ℚ) / (a.Trials : ℚ) ≤ ((m : ℤ) : ℚ) := by
    rw [div_le_iff₀ htpos]
    exact_mod_cast hzb
  rw [havg]
  exact ⟨round64_nonneg hq0, round64_le_int hmabs hqm⟩

theorem warmStart_rewardInv (g : Rng) (s0 : Sim) (hw : ucbWarmStart g = .ok s0) :
    RewardInv 2 s0 := by
  obtain ⟨s1, hp1, hq1⟩ := playArm_rewardInv 0 _ 0 (by norm_num) (initial_rewardInv g)
    (Or.inl rfl)
  obtain ⟨s2, hp2, hq2⟩ := playArm_rewardInv 1 s1 1 (by norm_num) hq1 (Or.inr rfl)
  obtain ⟨s1', s2', hp1', hp2', hw', _⟩ := warmStart_scoreInv g
  rw [hp1] at hp1'
  injection hp1' with e1
  subst e1
  rw [hp2] at hp2'
  injection hp2' with e2
  subst e2
  rw [hw] at hw'
  injection hw' with e3
  subst e3
  exact hq2

theorem scoring_state (M : MathFns) (g : Rng) (k : ℕ) (s0 s : Sim) (hk : (2 : ℤ) + k ≤ 2 ^ 30)
    (hw : ucbWarmStart g = .ok s0) (hs : forLoop (ucbStep M) k 2 s0 = .ok s) :
    ScoreInv (2 + k) s ∧ RewardInv (2 + k) s ∧
      forLoop (ucbStep M) (k + 1) 2 s0 = ucbStep M (2 + k) s := by
  obtain ⟨s0', hw', _, hrounds⟩ := scoring_rounds M g
  rw [hw] at hw'
  injection hw' with e
  subst e
  have h30 : (2 : ℤ) ^ 30 < 2 ^ 63 := by norm_num
  obtain ⟨s', hs', hstep, hinv⟩ := hrounds k (by omega)
  rw [hs] at hs'
  injection hs' with e
  subst e
  obtain ⟨s'', hs'', hrew⟩ := forLoop_total_upto (ucbStep M) RewardInv (2 ^ 30)
    (ucbStep_rewardInv M) k 2 s0 hk (warmStart_rewardInv g s0 hw)
  rw [hs] at hs''
  injection hs'' with e
  subst e
  exact ⟨hinv, hrew, hstep⟩

theorem scoring_state_bounds (t : ℤ) (s : Sim) (ht : t ≤ 2 ^ 20) (hsc : ScoreInv t s)
    (hrw : RewardInv t s) (x : Arm) (hx : x ∈ s.arms) :
    1 ≤ x.Trials ∧ x.Trials ≤ 2 ^ 20 ∧ 0 ≤ x.AvgReward ∧ x.AvgReward ≤ 2 ^ 16 := by
  obtain ⟨a0, a1, z0, z1, harms, _, _, hz0, hz1, hz0n, hz0b, hz1n, hz1b, ht0, ht1, hsum⟩ := hrw
  have h1 := hsc.2 x hx
  have hp0 := hsc.2 a0 (by rw [harms]; simp)
  have hp1 := hsc.2 a1 (by rw [harms]; simp)
  have h20 : (2 : ℤ) ^ 20 ≤ 2 ^ 30 := by norm_num
  rw [harms] at hx
  simp only [List.mem_cons, List.mem_singleton, List.not_mem_nil, or_false] at hx
  rcases hx with rfl | rfl
  · obtain ⟨hA, hB⟩ := avg_bound x z0 19 hz0 hz0n hz0b hp0 (by omega) (by norm_num) (by norm_num)
    refine ⟨h1, by omega, hA, le_trans hB (by norm_num)⟩
  · obtain ⟨hA, hB⟩ := avg_bound x z1 1 hz1 hz1n (by omega) hp1 (by omega) (by norm_num)
      (by norm_num)
    refine ⟨h1, by omega, hA, le_trans hB (by norm_num)⟩

theorem ucbStep_of_choice (M : MathFns) (t : ℤ) (s : Sim) (c : ℤ)
    (h : ucbChoice (ucbValues M t s.arms) = .ok c) : ucbStep M t s = playArm s c := by
  unfold ucbStep
  rw [h]

theorem playArm_zero_miss (a0 a1 : Arm) (g : Rng) (log : List ℤ)
    (h : ¬ g.Float64.1 < a0.SuccessProb) :
    playArm ⟨[a0, a1], g, log⟩ 0
      = .ok ⟨[{ a0 with Trials := wrap64 (a0.Trials + 1) }, a1], g.next, log ++ [0]⟩ := by
  rw [playArm_zero, Play_miss a0 g h]
  rfl

theorem playArm_one_miss (a0 a1 : Arm) (g : Rng) (log : List ℤ)
    (h : ¬ g.Float64.1 < a1.SuccessProb) :
    playArm ⟨[a0, a1], g, log⟩ 1
      = .ok ⟨[a0, { a1 with Trials := wrap64 (a1.Trials + 1) }], g.next, log ++ [1]⟩ := by
  rw [playArm_one, Play_miss a1 g h]
  rfl


theorem Play_preserves_inv (a a1 : Arm) (g g1 : Rng) (hinv : a.Inv)
    (hS : IsInt64 a.Successes) (hT : a.Trials < 2 ^ 63 - 1)
    (h : a.Play g = .ok (a1, g1)) : a1.Inv := by
  obtain ⟨hs, hr⟩ := hinv
  have eT : wrap64 (a.Trials + 1) = a.Trials + 1 := wrap64_succ (by have := hS.1; omega) hT
  have eS : wrap64 (a.Successes + 1) = a.Successes + 1 := wrap64_succ hS.1 (by omega)
  rcases Play_ok_cases a a1 g g1 h with ⟨_, rfl, _⟩ | ⟨_, hn, rfl, _⟩
  · refine ⟨?_, hr⟩
    show a.Successes ≤ wrap64 (a.Trials + 1)
    rw [eT]; omega
  · refine ⟨?_, ?_⟩
    · show wrap64 (a.Successes + 1) ≤ wrap64 (a.Trials + 1)
      rw [eT, eS]; omega
    · show 0 ≤ fadd a.TotalReward _
      unfold fadd
      apply round64_nonneg
      have := ofInt_nonneg (Int.emod_nonneg ((g.next.tape g.next.pos).k : ℤ)
        (by omega : toInt a.RewardValue ≠ 0))
      linarith

/-! ## the claims -/

/-- C1 (epsilon-greedy exploitation): when the draw is not below epsilon,
`chooseArm` returns the flag false and the index of the arm with the strictly
greater average reward; with equal averages the arm with fewer trials, and with
equal trial counts too, index 0. -/
theorem chooseArm_exploit (a0 a1 : Arm) (rest : List Arm) (eps : ℚ) (g : Rng)
    (hdraw : ¬ g.Float64.1 < eps) :
    (a0.AvgReward > a1.AvgReward →
        chooseArm (a0 :: a1 :: rest) eps g = .ok ((0, false), g.Float64.2)) ∧
    (a1.AvgReward > a0.AvgReward →
        chooseArm (a0 :: a1 :: rest) eps g = .ok ((1, false), g.Float64.2)) ∧
    (a0.AvgReward = a1.AvgReward → a0.Trials < a1.Trials →
        chooseArm (a0 :: a1 :: rest) eps g = .ok ((0, false), g.Float64.2)) ∧
    (a0.AvgReward = a1.AvgReward → a1.Trials < a0.Trials →
        chooseArm (a0 :: a1 :: rest) eps g = .ok ((1, false), g.Float64.2)) ∧
    (a0.AvgReward = a1.AvgReward → a0.Trials = a1.Trials →
        chooseArm (a0 :: a1 :: rest) eps g = .ok ((0, false), g.Float64.2)) := by
  rw [chooseArm_cons, if_neg hdraw]
  refine ⟨?_, ?_, ?_, ?_, ?_⟩
  · intro h
    rw [if_pos h]; rfl
  · intro h
    rw [if_neg (not_lt.mpr h.le), if_pos h]; rfl
  · intro h ht
    rw [if_neg (by rw [h]; exact lt_irrefl _), if_neg (by rw [h]; exact lt_irrefl _),
      if_pos ht.le]; rfl
  · intro h ht
    rw [if_neg (by rw [h]; exact lt_irrefl _), if_neg (by rw [h]; exact lt_irrefl _),
      if_neg (not_le.mpr ht)]; rfl
  · intro h ht
    rw [if_neg (by rw [h]; exact lt_irrefl _), if_neg (by rw [h]; exact lt_irrefl _),
      if_pos ht.le]; rfl

set_option maxRecDepth 100000 in
/-- Witness of C1: the draw 1/2 is not below epsilon, the averages are 29/2 and 0,
and index 0 is returned. -/
theorem chooseArm_exploit_witness :
    (¬ (tapeOf [⟨1 / 2, 0⟩]).Float64.1 < epsilon) ∧
    armLead.AvgReward > armIdle.AvgReward ∧
    chooseArm [armLead, armIdle] epsilon (tapeOf [⟨1 / 2, 0⟩])
      = .ok ((0, false), (tapeOf [⟨1 / 2, 0⟩]).Float64.2) :=
  ⟨by decide!, by decide!,
    (chooseArm_exploit armLead armIdle [] epsilon (tapeOf [⟨1 / 2, 0⟩]) (by decide!)).1
      (by decide!)⟩

/-- C2 (epsilon-greedy exploration): when the draw is below epsilon, `chooseArm`
returns the flag true and the index of the arm with the strictly lower average
reward; with equal averages the index is the second draw, taken over {0, 1}. -/
theorem chooseArm_explore (a0 a1 : Arm) (rest : List Arm) (eps : ℚ) (g : Rng)
    (hdraw : g.Float64.1 < eps) :
    (a0.AvgReward > a1.AvgReward →
        chooseArm (a0 :: a1 :: rest) eps g = .ok ((1, true), g.Float64.2)) ∧
    (a1.AvgReward > a0.AvgReward →
        chooseArm (a0 :: a1 :: rest) eps g = .ok ((0, true), g.Float64.2)) ∧
    (a0.AvgReward = a1.AvgReward →
        chooseArm (a0 :: a1 :: rest) eps g
          = .ok ((((g.Float64.2.tape g.Float64.2.pos).k : ℤ) % 2, true), g.Float64.2.next) ∧
        g.Float64.2.Intn 2
          = .ok (((g.Float64.2.tape g.Float64.2.pos).k : ℤ) % 2, g.Float64.2.next) ∧
        (((g.Float64.2.tape g.Float64.2.pos).k : ℤ) % 2 = 0 ∨
          ((g.Float64.2.tape g.Float64.2.pos).k : ℤ) % 2 = 1)) := by
  rw [chooseArm_cons, if_pos hdraw]
  refine ⟨?_, ?_, ?_⟩
  · intro h
    rw [if_pos h]; rfl
  · intro h
    rw [if_neg (not_lt.mpr h.le), if_pos h]; rfl
  · intro h
    refine ⟨?_, ?_, by omega⟩
    · rw [if_neg (by rw [h]; exact lt_irrefl _), if_neg (by rw [h]; exact lt_irrefl _)]; rfl
    · simp [Rng.Float64, Rng.Intn]

set_option maxRecDepth 100000 in
/-- Witness of C2: the draw 1/16 is below epsilon, arm 1 has the lower average,
and index 1 is returned with the flag true. -/
theorem chooseArm_explore_witness :
    (tapeOf [⟨1 / 16, 0⟩]).Float64.1 < epsilon ∧
    armLead.AvgReward > armIdle.AvgReward ∧
    chooseArm [armLead, armIdle] epsilon (tapeOf [⟨1 / 16, 0⟩])
      = .ok ((1, true), (tapeOf [⟨1 / 16, 0⟩]).Float64.2) :=
  ⟨by decide!, by decide!,
    (chooseArm_explore armLead armIdle [] epsilon (tapeOf [⟨1 / 16, 0⟩]) (by decide!)).1
      (by decide!)⟩

/-- C3 (UCB1 selection): in a round with counter `t`, each arm is scored as
`average_reward + sqrt(2 * ln(t) / trials)` with the same `t` for both arms, and
when one arm's score is strictly greater than the other's, that arm is the one
on which `Play` is called; the other arm is left as it is. -/
theorem ucbStep_plays_greater (M : MathFns) (t : ℤ) (a0 a1 : Arm) (g : Rng) (log : List ℤ) :
    (∀ a : Arm, ucbScore M t a
      = fadd a.AvgReward (M.Sqrt (fdiv (fmul 2 (M.Log (ofInt t))) (ofInt a.Trials)))) ∧
    ucbValues M t [a0, a1] = [ucbScore M t a0, ucbScore M t a1] ∧
    (ucbScore M t a0 > ucbScore M t a1 →
      ucbStep M t ⟨[a0, a1], g, log⟩
        = (a0.Play g).map (fun r => (⟨[r.1, a1], r.2, log ++ [0]⟩ : Sim))) ∧
    (ucbScore M t a1 > ucbScore M t a0 →
      ucbStep M t ⟨[a0, a1], g, log⟩
        = (a1.Play g).map (fun r => (⟨[a0, r.1], r.2, log ++ [1]⟩ : Sim))) := by
  refine ⟨fun a => rfl, rfl, ?_, ?_⟩
  · intro h
    rw [ucbStep_eq_playArm, if_pos h, playArm_zero]
  · intro h
    rw [ucbStep_eq_playArm, if_neg (not_lt.mpr h.le), playArm_one]

set_option maxRecDepth 100000 in
/-- Witness of C3: with counter 3, the arm with two plays and total 29 scores
higher than the arm with one play and total 0, and it is the one played. -/
theorem ucbStep_plays_greater_witness :
    ucbScore standInMath 3 armLead > ucbScore standInMath 3 armIdle ∧
    ucbStep standInMath 3 ⟨[armLead, armIdle], tieTape, [0, 1]⟩
      = (armLead.Play tieTape).map (fun r => (⟨[r.1, armIdle], r.2, [0, 1] ++ [0]⟩ : Sim)) :=
  ⟨by decide!,
    (ucbStep_plays_greater standInMath 3 armLead armIdle tieTape [0, 1]).2.2.1 (by decide!)⟩

set_option maxRecDepth 100000 in
/-- C4, counterexample: after a warm-start in which both plays paid nothing, the
two arms have equal scores in the round with counter 2, and the arm played is
index 1, not index 0. -/
theorem ucb_tie_counterexample :
    (ucbWarmStart tieTape).map (fun s => (s.arms, s.rng.pos, s.played))
      = .ok ([armTieA, armTieB], 2, [0, 1]) ∧
    ucbScore standInMath 2 armTieA = ucbScore standInMath 2 armTieB ∧
    (ucbStep standInMath 2 ⟨[armTieA, armTieB], ⟨tieTape.tape, 2⟩, [0, 1]⟩).map
        (fun s => (s.arms, s.played))
      = .ok ([armTieA, { armTieB with Trials := 2 }], [0, 1, 1]) := by
  refine ⟨by decide!, by decide!, by decide!⟩

/-- C4 as amended: in a round in which the two arms have exactly equal UCB
scores, the arm selected and played is the higher-indexed arm, index 1. -/
theorem ucbStep_tie_plays_one (M : MathFns) (t : ℤ) (a0 a1 : Arm) (g : Rng) (log : List ℤ)
    (htie : ucbScore M t a0 = ucbScore M t a1) :
    ucbChoice (ucbValues M t [a0, a1]) = .ok 1 ∧
    ucbStep M t ⟨[a0, a1], g, log⟩
      = (a1.Play g).map (fun r => (⟨[a0, r.1], r.2, log ++ [1]⟩ : Sim)) := by
  have hn : ¬ ucbScore M t a0 > ucbScore M t a1 := by rw [htie]; exact lt_irrefl _
  constructor
  · rw [ucbChoice_total, if_neg hn]
  · rw [ucbStep_eq_playArm, if_neg hn, playArm_one]

set_option maxRecDepth 100000 in
/-- Witness of C4 as amended: the tie after a warm-start that paid nothing. -/
theorem ucbStep_tie_plays_one_witness :
    ucbScore standInMath 2 armTieA = ucbScore standInMath 2 armTieB ∧
    ucbChoice (ucbValues standInMath 2 [armTieA, armTieB]) = .ok 1 :=
  ⟨by decide!,
    (ucbStep_tie_plays_one standInMath 2 armTieA armTieB tieTape [0, 1] (by decide!)).1⟩

/-- C5 (UCB1 warm-start): for every random source the warm-start phase ends
without a panic; it is the play of index 0 (after which arm 0 has one trial and
arm 1 none) followed by the play of index 1, and at its end every arm has
`trials == 1`. -/
theorem ucb_warm_start (g : Rng) :
    ∃ s1 s : Sim,
      playArm ⟨initialArms, g, []⟩ 0 = .ok s1 ∧
      s1.arms.map Arm.Trials = [1, 0] ∧ s1.played = [0] ∧
      playArm s1 1 = .ok s ∧
      ucbWarmStart g = .ok s ∧
      s.arms.length = 2 ∧ (∀ a ∈ s.arms, a.Trials = 1) ∧ s.played = [0, 1] := by
  obtain ⟨b, c, g1, g2, h1, h2, hw, hb, hc, h0, _, _⟩ := warmStart_arms g
  refine ⟨_, _, h1, ?_, rfl, h2, hw, rfl, ?_, rfl⟩
  · simp only [List.map_cons, List.map_nil, hb, h0]
  · intro a ha
    simp only [List.mem_cons, List.mem_singleton, List.not_mem_nil, or_false] at ha
    rcases ha with rfl | rfl
    · exact hb
    · exact hc

/-- C6 (bounded trial budget): for every random source, a full run of
`runEGSimulation` and a full run of `runUCBSimulation` end without a panic with
per-arm trial counts that add up to 30; for UCB1 the count is 2 when the
warm-start ends, so its two plays are part of the 30. -/
theorem trial_budget (M : MathFns) (g : Rng) :
    (∃ s : EGSim, runEGFinal g = .ok s ∧ runEGSimulation g = .ok (egTotal s.arms) ∧
      totalTrials s.arms = 30 ∧ s.played.length = 30) ∧
    (∃ s0 s : Sim, ucbWarmStart g = .ok s0 ∧ totalTrials s0.arms = 2 ∧
      runUCBFinal M g = .ok s ∧ runUCBSimulation M g = ucbTotal s.arms ∧
      totalTrials s.arms = 30 ∧ s.played.length = 30) := by
  constructor
  · obtain ⟨s, hs, hinv⟩ := runEGFinal_total g
    obtain ⟨ht, hl⟩ := runInv_totalTrials hinv
    refine ⟨s, hs, ?_, ht, by exact_mod_cast hl⟩
    unfold runEGSimulation
    rw [hs]
  · obtain ⟨s0, s, hw, hinv0, hs, hinv⟩ := runUCBFinal_total M g
    obtain ⟨ht, hl⟩ := runInv_totalTrials hinv
    refine ⟨s0, s, hw, (runInv_totalTrials hinv0).1, hs, ?_, ht, by exact_mod_cast hl⟩
    unfold runUCBSimulation
    rw [hs]

set_option maxRecDepth 1000000 in
/-- C7, evaluation at a failing run: the final arms hold total rewards 29 and 0,
whose float64 sum, as `runUCBSimulation` computes it from the same arms, is 29,
while `runEGSimulation` returns `(29 / 7) * 7` evaluated in float64, which is
`29 + 2^-48`. -/
theorem runEGSimulation_rounding :
    (runEGFinal roundingTape).map (fun s => s.arms.map (fun a => (a.Trials, a.TotalReward)))
      = .ok [(7, 29), (23, 0)] ∧
    (runEGFinal roundingTape).bind (fun s => ucbTotal s.arms) = .ok 29 ∧
    fmul (fdiv 29 (ofInt 7)) (ofInt 7) = 29 + 1 / 2 ^ 48 ∧
    runEGSimulation roundingTape = .ok (29 + 1 / 2 ^ 48) ∧
    (29 + 1 / 2 ^ 48 : ℚ) ≠ 29 := by
  refine ⟨by decide!, by decide!, by decide!, by decide!, by decide!⟩

set_option maxRecDepth 100000 in
/-- C8, counterexample: an arm whose trials and successes both hold the largest
`int`, `2^63 - 1`. A successful play wraps both counters to the smallest `int`,
`-2^63`: trials is not one more than before, and successes is neither unchanged
nor one more than before. -/
theorem Play_wraps_at_max :
    (IsInt64 armMaxed.Trials ∧ IsInt64 armMaxed.Successes ∧ IsF64 armMaxed.TotalReward) ∧
    armMaxed.Play (tapeOf [⟨1 / 4, 0⟩, ⟨0, 1⟩])
      = .ok ({ armMaxed with Trials := -2 ^ 63, Successes := -2 ^ 63, TotalReward := 1 },
          (tapeOf [⟨1 / 4, 0⟩, ⟨0, 1⟩]).next.next) ∧
    (-2 ^ 63 : ℤ) ≠ armMaxed.Trials + 1 ∧
    (-2 ^ 63 : ℤ) ≠ armMaxed.Successes ∧ (-2 ^ 63 : ℤ) ≠ armMaxed.Successes + 1 := by
  refine ⟨by decide!, ?_, by decide!, by decide!, by decide!⟩
  rw [Play_hit armMaxed _ (by decide!) (by decide!)]
  have e1 : wrap64 (armMaxed.Trials + 1) = -2 ^ 63 := by decide!
  have e2 : wrap64 (armMaxed.Successes + 1) = -2 ^ 63 := by decide!
  have e3 : fadd armMaxed.TotalReward
      (ofInt ((((tapeOf [⟨1 / 4, 0⟩, ⟨0, 1⟩]).next.tape (tapeOf [⟨1 / 4, 0⟩, ⟨0, 1⟩]).next.pos).k : ℤ)
        % toInt armMaxed.RewardValue)) = 1 := by decide!
  rw [e1, e2, e3]

/-- C8 as amended (monotonic play): for an arm whose trials and successes are
below the largest `int`, after `Play` trials is exactly one more than before and
successes is unchanged or one more; total_reward is not less than before, for
every arm. A counter that holds the largest `int` wraps to the smallest one when
it is incremented. The hypotheses `IsInt64` and `IsF64` say that the fields hold
an `int` and a float64. -/
theorem Play_monotonic (a a1 : Arm) (g g1 : Rng) (hT : IsInt64 a.Trials)
    (hS : IsInt64 a.Successes) (hf : IsF64 a.TotalReward)
    (h : a.Play g = .ok (a1, g1)) :
    (a.Trials < 2 ^ 63 - 1 → a1.Trials = a.Trials + 1) ∧
    (a.Successes < 2 ^ 63 - 1 →
      (a1.Successes = a.Successes ∨ a1.Successes = a.Successes + 1)) ∧
    a.TotalReward ≤ a1.TotalReward ∧
    (a.Trials = 2 ^ 63 - 1 → a1.Trials = -2 ^ 63) ∧
    (a.Successes = 2 ^ 63 - 1 → (a1.Successes = a.Successes ∨ a1.Successes = -2 ^ 63)) := by
  have hmax : wrap64 (2 ^ 63 - 1 + 1) = -2 ^ 63 := by decide
  rcases Play_ok_cases a a1 g g1 h with ⟨_, rfl, _⟩ | ⟨_, hn, rfl, _⟩
  · refine ⟨fun ht => wrap64_succ hT.1 ht, fun _ => Or.inl rfl, le_rfl, ?_, fun _ => Or.inl rfl⟩
    intro ht
    show wrap64 (a.Trials + 1) = -2 ^ 63
    rw [ht, hmax]
  · refine ⟨fun ht => wrap64_succ hT.1 ht, fun hs => Or.inr (wrap64_succ hS.1 hs), ?_, ?_, ?_⟩
    · exact fadd_ge_left hf (ofInt_nonneg (Int.emod_nonneg _ (by omega)))
    · intro ht
      show wrap64 (a.Trials + 1) = -2 ^ 63
      rw [ht, hmax]
    · intro hs
      right
      show wrap64 (a.Successes + 1) = -2 ^ 63
      rw [hs, hmax]

set_option maxRecDepth 100000 in
/-- Witness of C8 as amended: a successful play of an arm with two trials and
total 29, drawing the reward 7. -/
theorem Play_monotonic_witness :
    (IsInt64 armLead.Trials ∧ IsInt64 armLead.Successes ∧ IsF64 armLead.TotalReward) ∧
    armLead.Play (tapeOf [⟨1 / 8, 0⟩, ⟨0, 7⟩])
      = .ok ({ armLead with Trials := 3, Successes := 3, TotalReward := 36 },
          (tapeOf [⟨1 / 8, 0⟩, ⟨0, 7⟩]).next.next) ∧
    ({ armLead with Trials := 3, Successes := 3, TotalReward := 36 } : Arm).Trials
        = armLead.Trials + 1 ∧
    armLead.TotalReward ≤ ({ armLead with Trials := 3, Successes := 3, TotalReward := 36 } : Arm).TotalReward :=
  have hp : armLead.Play (tapeOf [⟨1 / 8, 0⟩, ⟨0, 7⟩])
      = .ok ({ armLead with Trials := 3, Successes := 3, TotalReward := 36 },
          (tapeOf [⟨1 / 8, 0⟩, ⟨0, 7⟩]).next.next) := by
    rw [Play_hit armLead _ (by decide!) (by decide!)]
    have e1 : wrap64 (armLead.Trials + 1) = 3 := by decide!
    have e2 : wrap64 (armLead.Successes + 1) = 3 := by decide!
    have e : fadd armLead.TotalReward
        (ofInt ((((tapeOf [⟨1 / 8, 0⟩, ⟨0, 7⟩]).next.tape (tapeOf [⟨1 / 8, 0⟩, ⟨0, 7⟩]).next.pos).k : ℤ)
          % toInt armLead.RewardValue)) = 36 := by decide!
    rw [e1, e2, e]
  have hm := Play_monotonic armLead _ _ _ (by decide!) (by decide!) (by decide!) hp
  ⟨by decide!, hp, hm.1 (by decide!), hm.2.2.1⟩

set_option maxRecDepth 100000 in
/-- C9, counterexample: an arm with `2^63 - 1` trials and no success satisfies
the invariant; a play that misses wraps trials to `-2^63`, and
`successes <= trials` no longer holds. -/
theorem Play_breaks_invariant :
    (armFull.Inv ∧ IsInt64 armFull.Trials ∧ IsInt64 armFull.Successes) ∧
    armFull.Play (tapeOf [⟨3 / 4, 0⟩])
      = .ok ({ armFull with Trials := -2 ^ 63 }, (tapeOf [⟨3 / 4, 0⟩]).next) ∧
    ¬ ({ armFull with Trials := -2 ^ 63 } : Arm).Inv := by
  refine ⟨⟨by unfold Arm.Inv; decide!, by decide!, by decide!⟩, ?_, by unfold Arm.Inv; decide!⟩
  rw [Play_miss armFull _ (by decide!)]
  have e1 : wrap64 (armFull.Trials + 1) = -2 ^ 63 := by decide!
  rw [e1]

/-- C9 as amended (arm invariant): `successes <= trials` and `total_reward >= 0`
hold for the freshly constructed arms, are preserved by every `Play` of an arm
whose trials is below the largest `int`, and hold for every arm in every state
that a run of either simulation passes through: after any number of iterations
of the epsilon-greedy loop, of the warm-start loop and of the scoring loop for
which the loop counter is an `int`, and so at the end of both runs of the
program. -/
theorem arm_invariant :
    (∀ a ∈ initialArms, a.Inv) ∧
    (∀ (a a1 : Arm) (g g1 : Rng), a.Inv → IsInt64 a.Trials → IsInt64 a.Successes →
      a.Trials < 2 ^ 63 - 1 → a.Play g = .ok (a1, g1) → a1.Inv) ∧
    (∀ (g : Rng) (n : ℕ) (s : EGSim), (n : ℤ) < 2 ^ 63 →
      forLoop egStep n 0 { arms := initialArms, rng := g, played := [], explorationCount := 0 }
        = .ok s → ∀ a ∈ s.arms, a.Inv) ∧
    (∀ (g : Rng) (n : ℕ) (s : Sim),
      forLoop (fun i s => playArm s i) n 0 { arms := initialArms, rng := g, played := [] }
        = .ok s → ∀ a ∈ s.arms, a.Inv) ∧
    (∀ (M : MathFns) (g : Rng) (n : ℕ) (s0 s : Sim), (2 : ℤ) + n < 2 ^ 63 →
      ucbWarmStart g = .ok s0 →
      forLoop (ucbStep M) n 2 s0 = .ok s → ∀ a ∈ s.arms, a.Inv) ∧
    (∀ (g : Rng), ∃ s, runEGFinal g = .ok s ∧ ∀ a ∈ s.arms, a.Inv) ∧
    (∀ (M : MathFns) (g : Rng), ∃ s, runUCBFinal M g = .ok s ∧ ∀ a ∈ s.arms, a.Inv) := by
  have heg : ∀ (g : Rng) (n : ℕ) (s : EGSim), (n : ℤ) < 2 ^ 63 →
      forLoop egStep n 0 { arms := initialArms, rng := g, played := [], explorationCount := 0 }
        = .ok s → ∀ a ∈ s.arms, a.Inv := by
    intro g n s hn h a ha
    exact (forLoop_preserves_upto egStep (fun i s => ∀ a ∈ s.arms, CountInv i a) (2 ^ 63 - 1)
      (fun i s s1 hi hinv hb => egStep_countInv i s s1 hi hinv hb) n 0 _ s (by omega)
      initialArms_countInv h a ha).1
  have hucb : ∀ (M : MathFns) (g : Rng) (n : ℕ) (s0 s : Sim), (2 : ℤ) + n < 2 ^ 63 →
      ucbWarmStart g = .ok s0 →
      forLoop (ucbStep M) n 2 s0 = .ok s → ∀ a ∈ s.arms, a.Inv := by
    intro M g n s0 s hn hw h a ha
    exact (forLoop_preserves_upto (ucbStep M) (fun i s => ∀ a ∈ s.arms, CountInv i a)
      (2 ^ 63 - 1) (fun i s s1 hi hinv hb => ucbStep_countInv M i s s1 hi hinv hb) n 2 s0 s
      (by omega) (warmStart_countInv g s0 hw) h a ha).1
  refine ⟨fun a ha => (initialArms_countInv a ha).1, ?_, heg, ?_, hucb, ?_, ?_⟩
  · intro a a1 g g1 hinv hT hS hlt h
    exact Play_preserves_inv a a1 g g1 hinv hS hlt h
  · intro g n s h a ha
    exact ((warmLoop_countInv g n s h).2 a ha).1
  · intro g
    obtain ⟨s, hs, _⟩ := runEGFinal_total g
    exact ⟨s, hs, heg g 30 s (by norm_num) hs⟩
  · intro M g
    obtain ⟨s0, s, hw, _, hs, _⟩ := runUCBFinal_total M g
    refine ⟨s, hs, hucb M g 28 s0 s (by norm_num) hw ?_⟩
    rw [← runUCBFinal_eq M g s0 hw]
    exact hs

set_option maxRecDepth 100000 in
/-- C10, counterexample: an arm with the reward magnitude `2^53 + 4`, a float64.
On a successful play `rand.Intn` draws `r = 2^53 + 3`, below the magnitude;
`float64(r)` rounds to `2^53 + 4`, and this is the amount added to total_reward:
it equals the magnitude, so it is not below it. -/
theorem Play_adds_magnitude :
    (0 ≤ armWide.SuccessProb ∧ armWide.SuccessProb ≤ 1 ∧ 0 < armWide.RewardValue ∧
      IsF64 armWide.SuccessProb ∧ IsF64 armWide.RewardValue) ∧
    (tapeOf [⟨1 / 4, 0⟩, ⟨0, 2 ^ 53 + 3⟩]).Float64.1 < armWide.SuccessProb ∧
    ((tapeOf [⟨1 / 4, 0⟩, ⟨0, 2 ^ 53 + 3⟩]).next.Intn (toInt armWide.RewardValue)).map Prod.fst
      = .ok (2 ^ 53 + 3) ∧
    ofInt (2 ^ 53 + 3) = 2 ^ 53 + 4 ∧
    armWide.Play (tapeOf [⟨1 / 4, 0⟩, ⟨0, 2 ^ 53 + 3⟩])
      = .ok ({ armWide with Trials := 1, Successes := 1, TotalReward := 2 ^ 53 + 4 },
          (tapeOf [⟨1 / 4, 0⟩, ⟨0, 2 ^ 53 + 3⟩]).next.next) ∧
    ({ armWide with Trials := 1, Successes := 1, TotalReward := 2 ^ 53 + 4 } : Arm).TotalReward
        - armWide.TotalReward = armWide.RewardValue := by
  refine ⟨by decide!, by decide!, by decide!, by decide!, ?_, by decide!⟩
  rw [Play_hit armWide _ (by decide!) (by decide!)]
  have e1 : wrap64 (armWide.Trials + 1) = 1 := by decide!
  have e2 : wrap64 (armWide.Successes + 1) = 1 := by decide!
  have e3 : fadd armWide.TotalReward
      (ofInt ((((tapeOf [⟨1 / 4, 0⟩, ⟨0, 2 ^ 53 + 3⟩]).next.tape
          (tapeOf [⟨1 / 4, 0⟩, ⟨0, 2 ^ 53 + 3⟩]).next.pos).k : ℤ)
        % toInt armWide.RewardValue)) = 2 ^ 53 + 4 := by decide!
  rw [e1, e2, e3]

/-- C10 as amended (reward draw bound): on a successful play that returns, the
amount added to total_reward is `float64(r)` for the integer `r` that
`rand.Intn` draws, with `0 <= r < reward_magnitude`; the amount is an integer
with `0 <= amount <= reward_magnitude`, and for a magnitude of at most `2^53`
the conversion is exact: the amount is `r` itself and is below the magnitude.
The hypothesis `IsF64` says that the field `RewardValue` holds a float64. -/
theorem Play_reward_bound (a a1 : Arm) (g g1 : Rng) (hrv : IsF64 a.RewardValue)
    (hd : g.Float64.1 < a.SuccessProb) (h : a.Play g = .ok (a1, g1)) :
    ∃ r : ℤ, g.Float64.2.Intn (toInt a.RewardValue) = .ok (r, g1) ∧
      0 ≤ r ∧ (r : ℚ) < a.RewardValue ∧
      a1.TotalReward = fadd a.TotalReward (ofInt r) ∧
      (∃ z : ℤ, ofInt r = z ∧ 0 ≤ z) ∧ ofInt r ≤ a.RewardValue ∧
      (a.RewardValue ≤ 2 ^ 53 → ofInt r = r ∧ ofInt r < a.RewardValue) := by
  rcases Play_ok_cases a a1 g g1 h with ⟨hnd, _, _⟩ | ⟨_, hn, rfl, rfl⟩
  · exact absurd hd hnd
  · have h0 : 0 ≤ ((g.next.tape g.next.pos).k : ℤ) % toInt a.RewardValue :=
      Int.emod_nonneg _ (by omega)
    have h1 : ((g.next.tape g.next.pos).k : ℤ) % toInt a.RewardValue < toInt a.RewardValue :=
      Int.emod_lt_of_pos _ hn
    have h2 : ((((g.next.tape g.next.pos).k : ℤ) % toInt a.RewardValue : ℤ) : ℚ)
        < ((toInt a.RewardValue : ℤ) : ℚ) := by exact_mod_cast h1
    have h3 := lt_of_lt_of_le h2 (toInt_le_self hn)
    refine ⟨((g.next.tape g.next.pos).k : ℤ) % toInt a.RewardValue, ?_, h0, h3, rfl,
      ofInt_isInt h0, ofInt_le_float hrv h3.le, ?_⟩
    · have hn' : ¬ toInt a.RewardValue ≤ 0 := not_le.mpr hn
      simp [Rng.Float64, Rng.Intn, hn', Rng.next]
    · intro hmag
      have hex : ofInt (((g.next.tape g.next.pos).k : ℤ) % toInt a.RewardValue)
          = ((((g.next.tape g.next.pos).k : ℤ) % toInt a.RewardValue : ℤ) : ℚ) := by
        apply ofInt_exact
        rw [abs_of_nonneg h0]
        have h4 : ((((g.next.tape g.next.pos).k : ℤ) % toInt a.RewardValue : ℤ) : ℚ)
            < (((2 : ℤ) ^ 53 : ℤ) : ℚ) := by
          push_cast
          exact lt_of_lt_of_le h3 hmag
        have h5 : ((g.next.tape g.next.pos).k : ℤ) % toInt a.RewardValue < (2 : ℤ) ^ 53 := by
          exact_mod_cast h4
        exact h5.le
      exact ⟨hex, by rw [hex]; exact h3⟩

set_option maxRecDepth 100000 in
/-- Witness of C10 as amended: a successful play of an arm with magnitude 20
whose reward draw is 7. -/
theorem Play_reward_bound_witness :
    IsF64 armLead.RewardValue ∧
    (tapeOf [⟨1 / 8, 0⟩, ⟨0, 7⟩]).Float64.1 < armLead.SuccessProb ∧
    armLead.Play (tapeOf [⟨1 / 8, 0⟩, ⟨0, 7⟩])
      = .ok ({ armLead with Trials := 3, Successes := 3, TotalReward := 36 },
          (tapeOf [⟨1 / 8, 0⟩, ⟨0, 7⟩]).next.next) ∧
    ∃ r : ℤ, (tapeOf [⟨1 / 8, 0⟩, ⟨0, 7⟩]).Float64.2.Intn (toInt armLead.RewardValue)
        = .ok (r, (tapeOf [⟨1 / 8, 0⟩, ⟨0, 7⟩]).next.next) ∧
      0 ≤ r ∧ (r : ℚ) < armLead.RewardValue ∧
      ({ armLead with Trials := 3, Successes := 3, TotalReward := 36 } : Arm).TotalReward
        = fadd armLead.TotalReward (ofInt r) ∧
      (∃ z : ℤ, ofInt r = z ∧ 0 ≤ z) ∧ ofInt r ≤ armLead.RewardValue ∧
      (armLead.RewardValue ≤ 2 ^ 53 → ofInt r = r ∧ ofInt r < armLead.RewardValue) :=
  have hp : armLead.Play (tapeOf [⟨1 / 8, 0⟩, ⟨0, 7⟩])
      = .ok ({ armLead with Trials := 3, Successes := 3, TotalReward := 36 },
          (tapeOf [⟨1 / 8, 0⟩, ⟨0, 7⟩]).next.next) := by
    rw [Play_hit armLead _ (by decide!) (by decide!)]
    have e1 : wrap64 (armLead.Trials + 1) = 3 := by decide!
    have e2 : wrap64 (armLead.Successes + 1) = 3 := by decide!
    have e : fadd armLead.TotalReward
        (ofInt ((((tapeOf [⟨1 / 8, 0⟩, ⟨0, 7⟩]).next.tape (tapeOf [⟨1 / 8, 0⟩, ⟨0, 7⟩]).next.pos).k : ℤ)
          % toInt armLead.RewardValue)) = 36 := by decide!
    rw [e1, e2, e]
  ⟨by decide!, by decide!, hp, Play_reward_bound armLead _ _ _ (by decide!) (by decide!) hp⟩

/-- C11 (average reward): `AvgReward` returns exactly 0 when `trials == 0` and the
float64 quotient `total_reward / float64(trials)` otherwise, whose divisor is
then non-zero (for `|trials| <= 2^53` the conversion is exact and the value is
the correctly rounded quotient); the call leaves the arm unchanged. -/
theorem AvgReward_value (a : Arm) :
    (a.Trials = 0 → a.AvgReward = 0) ∧
    (a.Trials ≠ 0 → a.AvgReward = fdiv a.TotalReward (ofInt a.Trials) ∧ ofInt a.Trials ≠ 0) ∧
    (a.Trials ≠ 0 → |a.Trials| ≤ 2 ^ 53 →
      a.AvgReward = round64 (a.TotalReward / (a.Trials : ℚ))) ∧
    a.AvgRewardCall.1 = a.AvgReward ∧ a.AvgRewardCall.2 = a := by
  refine ⟨?_, ?_, ?_, rfl, rfl⟩
  · intro h
    simp [Arm.AvgReward, h]
  · intro h
    exact ⟨by simp [Arm.AvgReward, h], ofInt_ne_zero h⟩
  · intro h hb
    simp only [Arm.AvgReward, if_neg h, fdiv, ofInt_exact hb]

/-- C13 (no division by zero in UCB1): for every random source, the warm-start
returns, and in each round of the scoring loop, at the state on which the scores
are computed, every arm has `trials >= 1` and a non-zero divisor
`float64(trials)`, the counter `t` is at least 2, the argument `float64(t)` of the
logarithm is at least 2, and `ln` of it is positive. The rounds are those of
the program, counters 2 to 29, and beyond them every round whose counter is an
`int`. -/
theorem ucb_no_division_by_zero (M : MathFns) (g : Rng) :
    ∃ s0, ucbWarmStart g = .ok s0 ∧ runUCBFinal M g = forLoop (ucbStep M) 28 2 s0 ∧
      ∀ k : ℕ, (2 : ℤ) + k < 2 ^ 63 → ∃ s, forLoop (ucbStep M) k 2 s0 = .ok s ∧
        forLoop (ucbStep M) (k + 1) 2 s0 = ucbStep M (2 + k) s ∧
        (∀ a ∈ s.arms, 1 ≤ a.Trials ∧ ofInt a.Trials ≠ 0) ∧
        (2 : ℤ) ≤ 2 + k ∧ 2 ≤ ofInt (2 + k) ∧
        0 < Real.log ((ofInt (2 + k) : ℚ) : ℝ) := by
  obtain ⟨s0, hw, hrun, hk⟩ := scoring_rounds M g
  refine ⟨s0, hw, hrun, ?_⟩
  intro k hk63
  obtain ⟨s, hs, hstep, hinv⟩ := hk k hk63
  have ht : (2 : ℤ) ≤ 2 + k := by omega
  have h2 := two_le_ofInt ht
  refine ⟨s, hs, hstep, ?_, ht, h2, ?_⟩
  · intro a ha
    have h1 := hinv.2 a ha
    exact ⟨h1, ofInt_ne_zero (by omega)⟩
  · apply Real.log_pos
    have : ((2 : ℚ) : ℝ) ≤ ((ofInt (2 + k) : ℚ) : ℝ) := by exact_mod_cast h2
    have h2' : ((2 : ℚ) : ℝ) = 2 := by norm_num
    linarith

/-- C14 (sanity band, upper bound): with the arms and the budget of the program,
`trial_budget * max(reward_magnitude)` is 600; for every random source one run of
`runEGSimulation` or `runUCBSimulation` returns a total below 600; so are the two
averages that `main` computes over its 1000 runs, the float64 average over any
number of runs up to `2^40`, and the exact mean over any number of runs. -/
theorem sanity_band_upper :
    ((maxTrials : ℚ) * max 20 2 = 600) ∧
    (∀ g : Rng, ∃ v, runEGSimulation g = .ok v ∧ v < 600) ∧
    (∀ (M : MathFns) (g : Rng), ∃ v, runUCBSimulation M g = .ok v ∧ v < 600) ∧
    (∀ (M : MathFns) (seedsEG seedsUCB : ℤ → Rng),
      ∃ e u, main M seedsEG seedsUCB = .ok (e, u) ∧ e < 600 ∧ u < 600) ∧
    (∀ (M : MathFns) (seeds : ℤ → Rng) (n : ℤ), 1 ≤ n → n ≤ 2 ^ 40 →
      (∃ e, averageRuns runEGSimulation seeds n = .ok e ∧ e < 600) ∧
      (∃ u, averageRuns (runUCBSimulation M) seeds n = .ok u ∧ u < 600)) ∧
    (∀ (M : MathFns) (vs : List ℚ), vs ≠ [] →
      (∀ v ∈ vs, ∃ g, runEGSimulation g = .ok v ∨ runUCBSimulation M g = .ok v) →
      vs.sum / (vs.length : ℚ) < 600) := by
  have hgen : ∀ (M : MathFns) (seeds : ℤ → Rng) (n : ℤ), 1 ≤ n → n ≤ 2 ^ 40 →
      (∃ e, averageRuns runEGSimulation seeds n = .ok e ∧ e < 600) ∧
      (∃ u, averageRuns (runUCBSimulation M) seeds n = .ok u ∧ u < 600) := by
    intro M seeds n h1 h2
    obtain ⟨e, he, _, heb⟩ := averageRuns_bound runEGSimulation seeds n h1 h2
      runEGSimulation_bound
    obtain ⟨u, hu, _, hub⟩ := averageRuns_bound (runUCBSimulation M) seeds n h1 h2
      (runUCBSimulation_bound M)
    exact ⟨⟨e, he, by linarith⟩, ⟨u, hu, by linarith⟩⟩
  refine ⟨?_, ?_, ?_, ?_, hgen, ?_⟩
  · norm_num [maxTrials]
  · intro g
    obtain ⟨v, hv, _, hb⟩ := runEGSimulation_bound g
    exact ⟨v, hv, by linarith⟩
  · intro M g
    obtain ⟨v, hv, _, hb⟩ := runUCBSimulation_bound M g
    exact ⟨v, hv, by linarith⟩
  · intro M seedsEG seedsUCB
    obtain ⟨e, he, heb⟩ := (hgen M seedsEG nbSimulation (by norm_num [nbSimulation])
      (by norm_num [nbSimulation])).1
    obtain ⟨u, hu, hub⟩ := (hgen M seedsUCB nbSimulation (by norm_num [nbSimulation])
      (by norm_num [nbSimulation])).2
    refine ⟨e, u, ?_, heb, hub⟩
    unfold main
    rw [he, hu]
  · intro M vs hne hvs
    have : vs.sum / (vs.length : ℚ) ≤ 570 := by
      apply mean_le vs hne
      intro v hv
      obtain ⟨g, hg | hg⟩ := hvs v hv
      · obtain ⟨w, hw, _, hb⟩ := runEGSimulation_bound g
        rw [hg] at hw
        injection hw with hw
        rw [hw]; exact hb
      · obtain ⟨w, hw, _, hb⟩ := runUCBSimulation_bound M g
        rw [hg] at hw
        injection hw with hw
        rw [hw]; exact hb
    linarith

/-- C15 (play outcome): for every arm and every draw, `Play` increments successes
if and only if the draw is below `success_probability`, where the increment is
that of an `int` (one more, for a value below the largest `int`). When the draw
is not below `success_probability`, `Play` returns, successes and total_reward
are unchanged and only trials changes. When it is below, `Play` returns with
successes incremented, or ends with successes incremented in the panic of
`rand.Intn`. -/
theorem Play_outcome (a : Arm) (g : Rng) :
    ((a.PlayReceiver g).Successes = wrap64 (a.Successes + 1) ↔ g.Float64.1 < a.SuccessProb) ∧
    ((a.PlayReceiver g).Successes ≠ a.Successes ↔ g.Float64.1 < a.SuccessProb) ∧
    (IsInt64 a.Successes → a.Successes < 2 ^ 63 - 1 →
      wrap64 (a.Successes + 1) = a.Successes + 1) ∧
    (∀ a1 g1, a.Play g = .ok (a1, g1) →
      a1 = a.PlayReceiver g ∧
      (a1.Successes = wrap64 (a.Successes + 1) ↔ g.Float64.1 < a.SuccessProb)) ∧
    (¬ g.Float64.1 < a.SuccessProb →
      a.Play g = .ok ({ a with Trials := wrap64 (a.Trials + 1) }, g.next) ∧
      a.PlayReceiver g = { a with Trials := wrap64 (a.Trials + 1) } ∧
      wrap64 (a.Trials + 1) ≠ a.Trials) ∧
    (g.Float64.1 < a.SuccessProb →
      ((∃ a1 g1, a.Play g = .ok (a1, g1)) ∨ a.Play g = .error .intnNonPositive) ∧
      (a.PlayReceiver g).Successes = wrap64 (a.Successes + 1) ∧
      wrap64 (a.Successes + 1) ≠ a.Successes) := by
  have hne := wrap64_succ_ne a.Successes
  have hhit : g.Float64.1 < a.SuccessProb →
      (a.PlayReceiver g).Successes = wrap64 (a.Successes + 1) := by
    intro hd
    rcases le_or_lt (toInt a.RewardValue) 0 with hn | hn
    · rw [PlayReceiver_panic a g hd hn]
    · rw [PlayReceiver_hit a g hd hn]
  have hmiss : ¬ g.Float64.1 < a.SuccessProb → (a.PlayReceiver g).Successes = a.Successes := by
    intro hd
    rw [PlayReceiver_miss a g hd]
  have hiff : (a.PlayReceiver g).Successes = wrap64 (a.Successes + 1) ↔
      g.Float64.1 < a.SuccessProb := by
    constructor
    · intro hs
      by_contra hd
      rw [hmiss hd] at hs
      exact hne hs.symm
    · exact hhit
  refine ⟨hiff, ?_, fun hS hlt => wrap64_succ hS.1 hlt, ?_, ?_, ?_⟩
  · constructor
    · intro hs
      by_contra hd
      exact hs (hmiss hd)
    · intro hd
      rw [hhit hd]
      exact hne
  · intro a1 g1 h
    have e := PlayReceiver_of_ok a a1 g g1 h
    refine ⟨e.symm, ?_⟩
    rw [← e]
    exact hiff
  · intro hd
    exact ⟨Play_miss a g hd, PlayReceiver_miss a g hd, wrap64_succ_ne a.Trials⟩
  · intro hd
    refine ⟨?_, hhit hd, hne⟩
    rcases le_or_lt (toInt a.RewardValue) 0 with hn | hn
    · exact Or.inr (Play_panic a g hd hn)
    · exact Or.inl ⟨_, _, Play_hit a g hd hn⟩

/-- C16 (UCB1 trial counter): the scoring loop is 28 rounds with counters 2 to
29; at the start of the round with counter `t` the sum of the two arms' trial
counts is `t`, and so is the number of plays executed so far. -/
theorem ucb_trial_counter (M : MathFns) (g : Rng) :
    ∃ s0, ucbWarmStart g = .ok s0 ∧ runUCBFinal M g = forLoop (ucbStep M) 28 2 s0 ∧
      ∀ k : ℕ, k < 28 → ∃ s, forLoop (ucbStep M) k 2 s0 = .ok s ∧
        forLoop (ucbStep M) (k + 1) 2 s0 = ucbStep M (2 + k) s ∧
        totalTrials s.arms = 2 + k ∧ (s.played.length : ℤ) = 2 + k ∧
        (2 : ℤ) ≤ 2 + k ∧ (2 : ℤ) + k ≤ 29 := by
  obtain ⟨s0, hw, hrun, hk⟩ := scoring_rounds M g
  refine ⟨s0, hw, hrun, ?_⟩
  intro k hk28
  obtain ⟨s, hs, hstep, hinv⟩ := hk k (by omega)
  obtain ⟨ht, hl⟩ := runInv_totalTrials hinv.1
  exact ⟨s, hs, hstep, ht, hl, by omega, by omega⟩

/-- C17 (frame of a play): a returning `Play` leaves `success_probability` and
`reward_magnitude` unchanged; a step of either simulation (a round of the
epsilon-greedy loop, a round of the UCB1 scoring loop, a warm-start play) that
plays index `c` leaves every arm at another index unchanged. -/
theorem play_frame :
    (∀ (a a1 : Arm) (g g1 : Rng), a.Play g = .ok (a1, g1) →
      a1.SuccessProb = a.SuccessProb ∧ a1.RewardValue = a.RewardValue) ∧
    (∀ (i : ℤ) (s s1 : EGSim), egStep i s = .ok s1 →
      ∃ c : ℤ, s1.played = s.played ++ [c] ∧ s1.arms.length = s.arms.length ∧
        ∀ j : ℤ, j ≠ c → index s1.arms j = index s.arms j) ∧
    (∀ (M : MathFns) (t : ℤ) (s s1 : Sim), ucbStep M t s = .ok s1 →
      ∃ c : ℤ, s1.played = s.played ++ [c] ∧ s1.arms.length = s.arms.length ∧
        ∀ j : ℤ, j ≠ c → index s1.arms j = index s.arms j) ∧
    (∀ (s s1 : Sim) (c : ℤ), playArm s c = .ok s1 →
      s1.played = s.played ++ [c] ∧ s1.arms.length = s.arms.length ∧
        ∀ j : ℤ, j ≠ c → index s1.arms j = index s.arms j) := by
  refine ⟨?_, ?_, ?_, playArm_frame⟩
  · intro a a1 g g1 h
    rcases Play_ok_cases a a1 g g1 h with ⟨_, rfl, _⟩ | ⟨_, _, rfl, _⟩ <;> exact ⟨rfl, rfl⟩
  · intro i s s1 h
    unfold egStep at h
    cases hc : chooseArm s.arms epsilon s.rng with
    | error p => rw [hc] at h; cases h
    | ok r =>
      obtain ⟨⟨c, b⟩, g1⟩ := r
      rw [hc] at h
      simp only at h
      cases hp : playArm { s.toSim with rng := g1 } c with
      | error p => rw [hp] at h; cases h
      | ok s2 =>
        rw [hp] at h
        simp only at h
        injection h with h
        subst h
        exact ⟨c, playArm_frame { s.toSim with rng := g1 } s2 c hp⟩
  · intro M t s s1 h
    unfold ucbStep at h
    cases hc : ucbChoice (ucbValues M t s.arms) with
    | error p => rw [hc] at h; cases h
    | ok c =>
      rw [hc] at h
      exact ⟨c, playArm_frame s s1 c h⟩

/-- C18 (shrinking confidence bonus): over the reals the bonus
`sqrt(2 * ln(t) / m)` is strictly smaller than `sqrt(2 * ln(t) / n)` for every
`t >= 2` and `1 <= n < m`. In the float64 computation of the code the same holds
in every round of the scoring loop of a run: at the state `s` that the run
reaches after `k < 28` rounds, where the counter is `t = 2 + k`, for two arms `a`
and `b` of the state with equal average reward of which `a` is the less played,
the computed bonus of `b` is strictly smaller than that of `a`, the score of `a`
is strictly greater, and the round selects and plays the index of `a`. The
library functions are parameters of the model; the hypotheses on them say that
`Log(t)` is at least 1/2 and that the square roots at the two arguments are
accurate to a relative `2^-51`. -/
theorem ucb_less_played_selected (M : MathFns) (g : Rng) (k : ℕ) (s0 s : Sim) (a b : Arm)
    (hk : k < 28) (hw : ucbWarmStart g = .ok s0) (hs : forLoop (ucbStep M) k 2 s0 = .ok s)
    (ha : a ∈ s.arms) (hb : b ∈ s.arms)
    (hnm : a.Trials < b.Trials) (havg : a.AvgReward = b.AvgReward)
    (hLog : 1 / 2 ≤ M.Log (ofInt (2 + k)))
    (hSa : SqrtAccurate M (fdiv (fmul 2 (M.Log (ofInt (2 + k)))) (ofInt a.Trials)))
    (hSb : SqrtAccurate M (fdiv (fmul 2 (M.Log (ofInt (2 + k)))) (ofInt b.Trials))) :
    (∀ x n m : ℝ, 2 ≤ x → 1 ≤ n → n < m →
      Real.sqrt (2 * Real.log x / m) < Real.sqrt (2 * Real.log x / n)) ∧
    ((2 : ℤ) ≤ 2 + k ∧ 1 ≤ a.Trials ∧ totalTrials s.arms = 2 + k) ∧
    M.Sqrt (fdiv (fmul 2 (M.Log (ofInt (2 + k)))) (ofInt b.Trials))
      < M.Sqrt (fdiv (fmul 2 (M.Log (ofInt (2 + k)))) (ofInt a.Trials)) ∧
    ucbScore M (2 + k) b < ucbScore M (2 + k) a ∧
    ∃ c : ℤ, index s.arms c = .ok a ∧ ucbChoice (ucbValues M (2 + k) s.arms) = .ok c ∧
      forLoop (ucbStep M) (k + 1) 2 s0 = playArm s c := by
  have hk30 : (2 : ℤ) + k ≤ 2 ^ 30 := by
    have : (2 : ℤ) + k ≤ 29 := by omega
    exact le_trans this (by norm_num)
  have hk20 : (2 : ℤ) + k ≤ 2 ^ 20 := by
    have : (2 : ℤ) + k ≤ 29 := by omega
    exact le_trans this (by norm_num)
  obtain ⟨hsc, hrw, hstep⟩ := scoring_state M g k s0 s hk30 hw hs
  obtain ⟨ha1, _, hc0, hcb⟩ := scoring_state_bounds _ s hk20 hsc hrw a ha
  obtain ⟨_, hmb, _, _⟩ := scoring_state_bounds _ s hk20 hsc hrw b hb
  obtain ⟨hbon, hscore⟩ := score_lt_of_less_played M (2 + k) a b hLog ha1 hnm hmb havg hc0 hcb
    hSa hSb
  refine ⟨exact_bonus_lt, ⟨by omega, ha1, (runInv_totalTrials hsc.1).1⟩, hbon, hscore, ?_⟩
  obtain ⟨a0, a1, harms, _⟩ := hsc.1
  rw [harms] at ha hb
  simp only [List.mem_cons, List.mem_singleton, List.not_mem_nil, or_false] at ha hb
  have hab : a ≠ b := by
    intro e
    rw [e] at hnm
    exact lt_irrefl _ hnm
  rcases ha with rfl | rfl
  · rcases hb with rfl | rfl
    · exact absurd rfl hab
    · have hc : ucbChoice (ucbValues M (2 + k) s.arms) = .ok 0 := by
        rw [harms, ucbChoice_total, if_pos hscore]
      refine ⟨0, by rw [harms]; exact index_cons_zero _ _, hc, ?_⟩
      rw [hstep]
      exact ucbStep_of_choice M _ s 0 hc
  · rcases hb with rfl | rfl
    · have hc : ucbChoice (ucbValues M (2 + k) s.arms) = .ok 1 := by
        rw [harms, ucbChoice_total, if_neg (not_lt.mpr hscore.le)]
      refine ⟨1, by rw [harms]; exact index_cons_one _ _ _, hc, ?_⟩
      rw [hstep]
      exact ucbStep_of_choice M _ s 1 hc
    · exact absurd rfl hab

set_option maxRecDepth 100000 in
/-- Witness of C18: a run whose first three plays pay nothing. After the
warm-start and one round (a tie, which plays index 1) the arms have 1 and 2
trials and average reward 0; in the round with counter 3, with the float64
values of `Log(3)`, `Sqrt(2 * Log(3))` and `Sqrt(2 * Log(3) / 2)`, the arm with
one trial has the greater score and index 0 is selected. -/
theorem ucb_less_played_selected_witness :
    ucbWarmStart tieTape = .ok ⟨[armTieA, armTieB], tieTape.next.next, [0, 1]⟩ ∧
    forLoop (ucbStep sampleMath) 1 2 ⟨[armTieA, armTieB], tieTape.next.next, [0, 1]⟩
      = .ok ⟨[armTieA, armTwice], tieTape.next.next.next, [0, 1, 1]⟩ ∧
    (armTieA.Trials < armTwice.Trials ∧ armTieA.AvgReward = armTwice.AvgReward) ∧
    (1 / 2 ≤ sampleMath.Log (ofInt 3) ∧
      SqrtAccurate sampleMath (fdiv (fmul 2 (sampleMath.Log (ofInt 3))) (ofInt armTieA.Trials)) ∧
      SqrtAccurate sampleMath (fdiv (fmul 2 (sampleMath.Log (ofInt 3))) (ofInt armTwice.Trials))) ∧
    ucbScore sampleMath 3 armTwice < ucbScore sampleMath 3 armTieA ∧
    ∃ c : ℤ, index [armTieA, armTwice] c = .ok armTieA ∧
      ucbChoice (ucbValues sampleMath 3 [armTieA, armTwice]) = .ok c :=
  have hw : ucbWarmStart tieTape = .ok ⟨[armTieA, armTieB], tieTape.next.next, [0, 1]⟩ := by
    have e : (((initialArms.length : ℕ) : ℤ) - 0).toNat = 2 := by decide
    unfold ucbWarmStart forRange
    rw [e]
    unfold initialArms
    simp only [forLoop]
    rw [playArm_zero_miss _ _ _ _ (by decide!)]
    simp only
    have e1 : (0 : ℤ) + 1 = 1 := by norm_num
    rw [e1, playArm_one_miss _ _ _ _ (by decide!)]
    simp only [Except.ok.injEq, Sim.mk.injEq]
    exact ⟨by decide!, trivial, rfl⟩
  have hs : forLoop (ucbStep sampleMath) 1 2 ⟨[armTieA, armTieB], tieTape.next.next, [0, 1]⟩
      = .ok ⟨[armTieA, armTwice], tieTape.next.next.next, [0, 1, 1]⟩ := by
    simp only [forLoop]
    rw [ucbStep_eq_playArm, if_neg (by decide!), playArm_one_miss _ _ _ _ (by decide!)]
    simp only [Except.ok.injEq, Sim.mk.injEq]
    exact ⟨by decide!, trivial, rfl⟩
  have h := ucb_less_played_selected sampleMath tieTape 1 _ _ armTieA armTwice (by decide) hw hs
    (by simp) (by simp) (by decide!) (by decide!) (by decide!) (by decide!) (by decide!)
  ⟨hw, hs, ⟨by decide!, by decide!⟩, ⟨by decide!, by decide!, by decide!⟩, h.2.2.2.1, by
    obtain ⟨c, hc1, hc2, _⟩ := h.2.2.2.2
    exact ⟨c, hc1, hc2⟩⟩

/-- C19 (index safety of epsilon-greedy): for every pair of arms, every epsilon
and every random source, `chooseArm` returns an index that is 0 or 1, and the
access `arms[choice]` is in range; no run of `runEGSimulation` panics. -/
theorem chooseArm_index_safe (a0 a1 : Arm) (rest : List Arm) (eps : ℚ) (g : Rng) :
    (∃ (c : ℤ) (b : Bool) (g1 : Rng),
      chooseArm (a0 :: a1 :: rest) eps g = .ok ((c, b), g1) ∧ (c = 0 ∨ c = 1) ∧
      ∃ a, index (a0 :: a1 :: rest) c = .ok a) ∧
    (∀ g0 : Rng, ∃ s, runEGFinal g0 = .ok s) := by
  constructor
  · obtain ⟨c, b, g1, hc, h01⟩ := chooseArm_total a0 a1 rest eps g
    refine ⟨c, b, g1, hc, h01, ?_⟩
    rcases h01 with rfl | rfl
    · exact ⟨a0, index_cons_zero a0 _⟩
    · exact ⟨a1, index_cons_one a0 a1 _⟩
  · intro g0
    obtain ⟨s, hs, _⟩ := runEGFinal_total g0
    exact ⟨s, hs⟩

end Mab
